import Mathlib

/-!
Verification of the adaptive enumeration and diff core of `dpd-scraper`.

This file shallowly embeds, in Lean 4, the parts of the repository that the
claims are about:

* `src/dpd_scraper/dpd_scraper.py`:
  - `_canon_din` (identity canonicalizer),
  - `collect_all_list_rows` with its nested helpers `_hit_cap`,
    `_sweep_one` and `_run_prefix_group` (pagination probe, pagination
    drain, shard sweep, dedup and hard row cap);
* `src/dpd_scraper/normalize.py`: `CANON_KEYS`, `canon_row`, `row_hash`;
* `src/dpd_scraper/diffing.py`: `compute_diff`.

Modelling conventions:
* Python strings are Lean `String`s; `str.strip()` is modelled for the
  ASCII whitespace characters (space, tab, LF, CR, VT, FF).
* Python dicts (rows, baselines) are association lists
  `List (String × α)` with pairwise-distinct keys; `d.get(k)` is
  `List.lookup`, `d[k] = v` is an in-place value update (append when the
  key is absent), exactly as Python dicts behave.
* Network traffic is abstracted as oracle inputs: the already-parsed row
  lists each fetch would yield.  A fetch that raises is `none`.
* `hashlib.sha256(json.dumps(d, sort_keys=True)).hexdigest()` is
  represented by the key-sorted list of the dict's entries: `json.dumps`
  with sorted keys is injective on string-valued dicts, so two rows get
  the same digest in the code exactly when their sorted entry lists are
  equal (up to SHA-256 collisions, which are not modelled).
-/

namespace DpdScraper

/-! ### String primitives (Python `str` operations used by the code) -/

/-- Python `str.strip()` whitespace, restricted to the ASCII range:
space, tab, LF, CR, vertical tab, form feed. -/
def pyIsSpace (c : Char) : Bool :=
  c = ' ' || c = '\t' || c = '\n' || c = '\r' || c = Char.ofNat 11 || c = Char.ofNat 12

/-- The composite `s.replace("\r\n","\n").replace("\r","\n")` from
`canon_row`: every CRLF pair collapses to LF, every remaining CR becomes
LF. -/
def normNLChars : List Char → List Char
  | [] => []
  | '\r' :: '\n' :: rest => '\n' :: normNLChars rest
  | '\r' :: rest => '\n' :: normNLChars rest
  | c :: rest => c :: normNLChars rest

/-- `str.strip()` on a character list: drop leading and trailing
whitespace. -/
def stripChars (l : List Char) : List Char :=
  ((l.dropWhile pyIsSpace).reverse.dropWhile pyIsSpace).reverse

/-- `s.replace("\r\n","\n").replace("\r","\n")` as a `String` map. -/
def normNL (s : String) : String :=
  ⟨normNLChars s.data⟩

/-- Python `s.strip()`. -/
def pyStrip (s : String) : String :=
  ⟨stripChars s.data⟩

/-- `v.replace("\r\n","\n").replace("\r","\n").strip()` — the value
normalization applied by `canon_row` to every string field. -/
def normVal (s : String) : String :=
  pyStrip (normNL s)

/-- `_canon_din` from `dpd_scraper.py`:
`"".join(ch for ch in (d or "") if ch.isdigit())` — keep exactly the
digit characters, in order.  (`str.isdigit` is modelled on the ASCII
digits `0`–`9`; DPD identifiers are ASCII.) -/
def canon_din (s : String) : String :=
  ⟨s.data.filter Char.isDigit⟩

/-! ### `normalize.py` -/

/-- A Python dict with string keys and string values (a scraped row, or a
baseline record).  Keys are pairwise distinct in every dict the program
builds; lookups take the first match, which coincides with dict lookup
under that invariant. -/
abbrev PRow := List (String × String)

/-- `CANON_KEYS` from `normalize.py` (the fixed canonical column set). -/
def CANON_KEYS : List String :=
  ["Status", "DIN URL", "DIN", "Company", "Product", "Class", "PM See footnote1", "Schedule",
   "# See footnote2", "A.I. name See footnote3", "Strength",
   "Current status date", "Original market date", "Address", "City", "state", "Country", "Zipcode",
   "Number of active ingredient(s)", "Biosimilar Biologic Drug",
   "American Hospital Formulary Service (AHFS)", "Anatomical Therapeutic Chemical (ATC)",
   "Active ingredient group (AIG) number", "Labelling", "Product Monograph/Veterinary Date",
   "List of active ingredient", "Dosage form", "Route(s) of administration"]

/-- `row.get(k) or ""`: the value at `k`, or `""` when the key is absent
(a falsy present value is the empty string, which `or` maps to `""` as
well, so this is exact for string-valued dicts). -/
def getOr (row : PRow) (k : String) : String :=
  match row.lookup k with
  | some v => v
  | none => ""

/-- Python dict assignment `d[k] = v`: update the value in place when the
key is present, append the pair otherwise. -/
def dictSet {α : Type} (row : List (String × α)) (k : String) (v : α) : List (String × α) :=
  if row.any (fun p => p.1 == k) then
    row.map (fun p => if p.1 == k then (k, v) else p)
  else
    row ++ [(k, v)]

/-- `canon_row` from `normalize.py`: rebuild the row on exactly
`CANON_KEYS`, normalizing line endings and stripping each value, then
default an empty `"Biosimilar Biologic Drug"` to `"No"`. -/
def canon_row (row : PRow) : PRow :=
  let out := CANON_KEYS.map (fun k => (k, normVal (getOr row k)))
  if getOr out "Biosimilar Biologic Drug" = "" then
    dictSet out "Biosimilar Biologic Drug" "No"
  else
    out

/-- Lexicographic comparison of strings by code points (Python `<=` on
`str`), written on the underlying character lists so that it evaluates
inside the kernel. -/
def strLe (a b : String) : Prop := a.data ≤ b.data

instance : DecidableRel strLe := fun a b => inferInstanceAs (Decidable (a.data ≤ b.data))

/-- Comparison of dict entries by key, the order in which
`json.dumps(..., sort_keys=True)` emits them. -/
def entryLe (p q : String × String) : Prop := strLe p.1 q.1

instance : DecidableRel entryLe := fun p q => inferInstanceAs (Decidable (strLe p.1 q.1))

/-- `row_hash` from `normalize.py`:
`sha256(json.dumps(canon_row(row), ensure_ascii=False, sort_keys=True))`.
The digest is represented by the key-sorted entry list of
`canon_row row` — the exact data that is serialized and hashed; two rows
receive equal digests in the code iff these lists are equal (SHA-256
collisions are not modelled). -/
def row_hash (row : PRow) : List (String × String) :=
  (canon_row row).insertionSort entryLe

/-- The value `canon_row` ends up storing at key `k`: the normalized
looked-up value, with the `"Biosimilar Biologic Drug"` default applied.
(Reasoning helper; the lemma `canon_row_eq` ties it to the
definition.) -/
def canonVal (row : PRow) (k : String) : String :=
  if k = "Biosimilar Biologic Drug" ∧ normVal (getOr row k) = "" then "No"
  else normVal (getOr row k)

/-- Apply a transformation to every stored value of a row (leaving keys
and key membership unchanged) — used to express "the same record, with
its values re-encoded". -/
def mapVals (f : String → String) (r : PRow) : PRow :=
  r.map (fun p => (p.1, f p.2))

/-! ### `diffing.py` -/

/-- The three partitions returned by `compute_diff`:
`added` entries are `{"din": d, "after": nr}`, `removed` entries are
`{"din": d, "before": br}`, `modified` entries are
`{"din": d, "before": br, "after": nr}`. -/
structure DiffOut where
  added : List (String × PRow)
  removed : List (String × PRow)
  modified : List (String × PRow × PRow)

/-- The dict comprehension
`{r["DIN"]: canon_row(r) for r in new_rows if r.get("DIN")}`:
rows with a missing or empty `"DIN"` are skipped, a repeated raw DIN
overwrites the stored row (last write wins, position preserved). -/
def newByDin (new_rows : List PRow) : List (String × PRow) :=
  new_rows.foldl
    (fun d r => if getOr r "DIN" ≠ "" then dictSet d (getOr r "DIN") (canon_row r) else d)
    []

/-- `compute_diff` from `diffing.py`.  For each identity of the new set:
absent from the baseline → `added`; present with a different fingerprint
→ `modified`; present with the same fingerprint → omitted.  Each baseline
identity absent from the new set → `removed`. -/
def compute_diff (new_rows : List PRow) (baseline_by_din : List (String × PRow)) : DiffOut :=
  let new_by_din := newByDin new_rows
  { added := new_by_din.filterMap (fun p =>
      match baseline_by_din.lookup p.1 with
      | none => some (p.1, p.2)
      | some _ => none)
  , modified := new_by_din.filterMap (fun p =>
      match baseline_by_din.lookup p.1 with
      | none => none
      | some br => if row_hash p.2 = row_hash br then none else some (p.1, br, p.2))
  , removed := baseline_by_din.filterMap (fun q =>
      if (new_by_din.lookup q.1).isSome then none else some q) }

/-! ### `collect_all_list_rows` (`dpd_scraper.py`)

The network is abstracted: each fetch's already-parsed row list is an
oracle input (`none` when the underlying request raises).  Only the
`"DIN"` field of a listing row is read by the collection logic
(`r.get("DIN","")`), so a listing row is modelled as its raw DIN string
plus an opaque payload standing for the remaining fields. -/

/-- A parsed listing row: `din` is `r.get("DIN","")`, `rest` stands for
the other columns, which `collect_all_list_rows` carries along but never
inspects. -/
structure LRow where
  din : String
  rest : String
deriving DecidableEq, Repr

/-- The canonical identities of the rows accumulated so far:
`{_canon_din(r.get("DIN","")) for r in rows_all}` (as a list; only
membership is ever used). -/
def seenOf (rows : List LRow) : List String :=
  rows.map (fun r => canon_din r.din)

/-- `_hit_cap`: `max_rows > 0 and len(rows_all) >= max_rows`. -/
def hitCap (maxRows : Nat) (rows : List LRow) : Bool :=
  0 < maxRows && maxRows ≤ rows.length

/-- `rows_all if not _hit_cap() else rows_all[:max_rows]` — the shape of
every non-sample return of `collect_all_list_rows`. -/
def capReturn (maxRows : Nat) (rows : List LRow) : List LRow :=
  if hitCap maxRows rows then rows.take maxRows else rows

/-- The row-insertion loop shared by the pagination probe and the
pagination drain (no cap check between insertions):

    seen = {_canon_din(r.get("DIN","")) for r in rows_all}
    added = 0
    for rr in chunk:
        din_val = _canon_din(rr.get("DIN",""))
        if din_val and din_val not in seen:
            rows_all.append(rr); seen.add(din_val); added += 1

Returns the grown accumulator and `added`. -/
def insertChunk (rows : List LRow) : List LRow → List LRow × Nat
  | [] => (rows, 0)
  | rr :: rest =>
    if canon_din rr.din ≠ "" && !((seenOf rows).contains (canon_din rr.din)) then
      ((insertChunk (rows ++ [rr]) rest).1, (insertChunk (rows ++ [rr]) rest).2 + 1)
    else insertChunk rows rest

/-- The raw DIN strings of a parsed page: `{r.get("DIN","") for r in rows}`
(as a list; used for set membership and set difference). -/
def rawDins (rows : List LRow) : List String :=
  rows.map (fun r => r.din)

/-- `new_vs_p1 = len({r.get("DIN","") for r in r2} - {... for r in page1_rows})`:
the number of distinct raw DINs of the candidate page-2 response that do
not occur among the raw DINs of page 1. -/
def newVsP1 (r2 page1 : List LRow) : Nat :=
  (((rawDins r2).dedup).filter (fun d => !((rawDins page1).contains d))).length

/-- The probe's acceptance test for one candidate paging-parameter
strategy: `if r2 and new_vs_p1 > 0`. -/
def probeAccepts (page1 r2 : List LRow) : Bool :=
  !r2.isEmpty && 0 < newVsP1 r2 page1

/-- The pagination-probe loop (`for strat in paging_keys`): try each
candidate's page-2 response in order; a fetch that raises (`none`) is
skipped; the first accepted candidate has its page-2 rows inserted
(canonical dedup, empty identities discarded), after which the cap is
checked — `.error` is the early `return rows_all[:max_rows]` — and the
loop breaks, fixing the candidate's index.  `i` is the index of the
first remaining candidate. -/
def probeLoop (maxRows : Nat) (page1 : List LRow) :
    List (Option (List LRow)) → Nat → List LRow → Except (List LRow) (Option Nat × List LRow)
  | [], _, rows => .ok (none, rows)
  | none :: rest, i, rows => probeLoop maxRows page1 rest (i + 1) rows
  | some r2 :: rest, i, rows =>
    if probeAccepts page1 r2 then
      let rows' := (insertChunk rows r2).1
      if hitCap maxRows rows' then .error (rows'.take maxRows)
      else .ok (some i, rows')
    else probeLoop maxRows page1 rest (i + 1) rows

/-- The pagination drain (`for page in range(3, max_pages + 1)`), run with
the accepted strategy.  A failed fetch or an empty page breaks out; a
page with zero newly inserted identities bumps the stall counter and the
loop breaks once it reaches `PAGE_STALL_LIMIT`; any new identity resets
the counter; after each counted page the cap is checked (`.error` is the
early truncated return). -/
def drainLoop (maxRows stallLimit : Nat) (fetch : Nat → Option (List LRow)) :
    List Nat → Nat → List LRow → Except (List LRow) (List LRow)
  | [], _, rows => .ok rows
  | p :: rest, stall, rows =>
    match fetch p with
    | none => .ok rows
    | some chunk =>
      if chunk.isEmpty then .ok rows
      else
        let rows' := (insertChunk rows chunk).1
        let added := (insertChunk rows chunk).2
        if added = 0 then
          if stallLimit ≤ stall + 1 then .ok rows'
          else if hitCap maxRows rows' then .error (rows'.take maxRows)
          else drainLoop maxRows stallLimit fetch rest (stall + 1) rows'
        else if hitCap maxRows rows' then .error (rows'.take maxRows)
        else drainLoop maxRows stallLimit fetch rest 0 rows'

/-- The row-insertion loop of `_sweep_one` (page 1 and drained pages):
identical dedup to `insertChunk`, but `_hit_cap()` is checked after
every single insertion and hitting the cap returns out of the whole
shard immediately.  Returns `(rows, added, capHit)`. -/
def sweepInsert (maxRows : Nat) : List LRow → List LRow → Nat → List LRow × Nat × Bool
  | rows, [], added => (rows, added, false)
  | rows, rr :: rest, added =>
    let d := canon_din rr.din
    if d ≠ "" && !((seenOf rows).contains d) then
      let rows' := rows ++ [rr]
      if hitCap maxRows rows' then (rows', added + 1, true)
      else sweepInsert maxRows rows' rest (added + 1)
    else sweepInsert maxRows rows rest added

/-- The paged part of `_sweep_one`
(`for page in range(2, SWEEP_PAGE_LIMIT + 1)`): an empty page breaks; a
page with zero new unique identities bumps the per-shard stall counter
(break at `PAGE_STALL_LIMIT`); a cap hit mid-insertion returns
immediately.  Returns `(rows, added_total, saw_any)`. -/
def sweepPages (maxRows stallLimit : Nat) (fetch : Nat → List LRow) :
    List Nat → Nat → Nat → Bool → List LRow → List LRow × Nat × Bool
  | [], _, addedTotal, sawAny, rows => (rows, addedTotal, sawAny)
  | p :: rest, stall, addedTotal, sawAny, rows =>
    let rowsP := fetch p
    if rowsP.isEmpty then (rows, addedTotal, sawAny)
    else
      let res := sweepInsert maxRows rows rowsP 0
      if res.2.2 then (res.1, addedTotal + res.2.1, true)
      else if res.2.1 = 0 then
        if stallLimit ≤ stall + 1 then (res.1, addedTotal, true)
        else sweepPages maxRows stallLimit fetch rest (stall + 1) addedTotal true res.1
      else sweepPages maxRows stallLimit fetch rest 0 (addedTotal + res.2.1) true res.1

/-- `_sweep_one(filter_key, value)`: page 1 via POST-then-GET (the
oracle's page 1), then the paged drain.  Returns
`(rows, added_total, saw_any_rows_at_all)`. -/
def sweep_one (maxRows stallLimit sweepPageLimit : Nat) (fetch : Nat → List LRow)
    (rows : List LRow) : List LRow × Nat × Bool :=
  let rows1 := fetch 1
  if rows1.isEmpty then
    sweepPages maxRows stallLimit fetch (List.range' 2 (sweepPageLimit - 1)) 0 0 false rows
  else
    let res := sweepInsert maxRows rows rows1 0
    if res.2.2 then (res.1, res.2.1, true)
    else sweepPages maxRows stallLimit fetch (List.range' 2 (sweepPageLimit - 1)) 0 res.2.1 true res.1

/-- `_run_prefix_group(kind, values)`: sweep each prefix token in order,
tracking `empty_streak`, the number of consecutive shards that saw no
rows at any endpoint.  When `SCRAPER_SWEEP_MAX_EMPTY` is nonzero (Python
truthiness) and the streak reaches it, the group is abandoned
(`return True`); the streak resets to zero after any shard that saw
rows.  After each shard the cap is checked (`return True`).  Returns
`(should_stop, rows)`. -/
def runPrefixGroup (maxRows stallLimit sweepPageLimit maxEmpty : Nat)
    (fetch : String → Nat → List LRow) :
    List String → Nat → List LRow → Bool × List LRow
  | [], _, rows => (false, rows)
  | v :: rest, streak, rows =>
    let res := sweep_one maxRows stallLimit sweepPageLimit (fetch v) rows
    if !res.2.2 then
      if maxEmpty ≠ 0 && maxEmpty ≤ streak + 1 then (true, res.1)
      else if hitCap maxRows res.1 then (true, res.1)
      else runPrefixGroup maxRows stallLimit sweepPageLimit maxEmpty fetch rest (streak + 1) res.1
    else if hitCap maxRows res.1 then (true, res.1)
    else runPrefixGroup maxRows stallLimit sweepPageLimit maxEmpty fetch rest 0 res.1

/-- `BRAND_SYMBOL_PREFIXES = list("()[]{}#&+-,.'/")` (the characters are
spelled via code points where Lean source restrictions require it:
123 `{`, 125 `}`, 39 apostrophe). -/
def brandSymbolTokens : List String :=
  ["(", ")", "[", "]", String.singleton (Char.ofNat 123), String.singleton (Char.ofNat 125),
   "#", "&", "+", "-", ",", ".", String.singleton (Char.ofNat 39), "/"]

/-- `build_brand_prefixes()`: `A`–`Z`, then `0`–`9`, then the symbol
tokens. -/
def brandTokens : List String :=
  (List.range 26).map (fun i => String.singleton (Char.ofNat (65 + i)))
    ++ (List.range 10).map (fun i => String.singleton (Char.ofNat (48 + i)))
    ++ brandSymbolTokens

/-- `build_din_prefixes()`: the digit tokens `0`–`9`. -/
def dinTokens : List String :=
  (List.range 10).map (fun i => String.singleton (Char.ofNat (48 + i)))

/-- The oracle inputs of one `collect_all_list_rows` call: everything the
network (and the HTML parsing collaborators) would feed it.
`page1` is `parse_list_page_rows(first_html)`; `perPageDt` is the
`iDisplayLength` detected from the embedded DataTables config (`0` for
the Python-falsy case); `total` is `_extract_total_entries(first_html)`;
`probeResps` are the page-2 responses of the candidate paging
strategies, in candidate order (`none` = the fetch raised);
`drainFetch i p` is the page-`p` response when draining with accepted
candidate `i`; `sweepFetch kind value p` is what `_post_then_get`
returns for a shard page (it never raises: all its failures collapse to
`[]`). -/
structure NetInput where
  page1 : List LRow
  perPageDt : Nat
  total : Option Nat
  probeResps : List (Option (List LRow))
  drainFetch : Nat → Nat → Option (List LRow)
  sweepFetch : String → String → Nat → List LRow

/-- The configuration a `collect_all_list_rows` call runs under:
`max_rows` (0 = no cap), `min_rows`, `sample_n`, `PAGE_STALL_LIMIT`
(default 2), `SWEEP_PAGE_LIMIT` (default 8), `SCRAPER_SWEEP_MAX_EMPTY`
(default 0 = never), and whether `SCRAPER_SWEEP_ORDER` is
`brand-first`. -/
structure Cfg where
  maxRows : Nat
  minRows : Nat
  sampleN : Option Nat
  stallLimit : Nat
  sweepPageLimit : Nat
  sweepMaxEmpty : Nat
  brandFirst : Bool

/-- Python truthiness of an optional integer (`if sample_n:`,
`if total:`): `None` and `0` are falsy. -/
def optTruthy : Option Nat → Bool
  | none => false
  | some n => n ≠ 0

/-- The shard-sweep phase of `collect_all_list_rows`: run the two prefix
groups in the configured order; a group that asks to stop short-circuits
the remaining group; every exit applies the cap truncation. -/
def sweepPhase (inp : NetInput) (cfg : Cfg) (rows : List LRow) : List LRow :=
  let k1 := if cfg.brandFirst then "brandName" else "din"
  let t1 := if cfg.brandFirst then brandTokens else dinTokens
  let k2 := if cfg.brandFirst then "din" else "brandName"
  let t2 := if cfg.brandFirst then dinTokens else brandTokens
  let g1 := runPrefixGroup cfg.maxRows cfg.stallLimit cfg.sweepPageLimit cfg.sweepMaxEmpty
      (inp.sweepFetch k1) t1 0 rows
  if g1.1 then capReturn cfg.maxRows g1.2
  else
    let g2 := runPrefixGroup cfg.maxRows cfg.stallLimit cfg.sweepPageLimit cfg.sweepMaxEmpty
        (inp.sweepFetch k2) t2 0 g1.2
    capReturn cfg.maxRows g2.2

/-- The body of `collect_all_list_rows` after the `sample_n` shortcut:
cap check on the page-1 rows, pagination probe, pagination drain (with
`max_pages` derived from the "of N entries" total or the fixed fallback
100), the post-drain `if total or len(rows_all) >= min_rows` return, and
the shard-sweep fallback. -/
def collectBody (inp : NetInput) (cfg : Cfg) : List LRow :=
  let rows0 := inp.page1
  if hitCap cfg.maxRows rows0 then rows0.take cfg.maxRows
  else
    let per := if rows0.isEmpty then (if inp.perPageDt = 0 then 25 else inp.perPageDt)
               else rows0.length
    let maxPages := match inp.total with
      | some t => if t ≠ 0 then (t + per - 1) / per else 100
      | none => 100
    if rows0.isEmpty then sweepPhase inp cfg rows0
    else
      match probeLoop cfg.maxRows rows0 inp.probeResps 0 rows0 with
      | .error res => res
      | .ok (none, rows1) => sweepPhase inp cfg rows1
      | .ok (some i, rows1) =>
        match drainLoop cfg.maxRows cfg.stallLimit (inp.drainFetch i)
            (List.range' 3 (maxPages - 2)) 0 rows1 with
        | .error res => res
        | .ok rows2 =>
          if optTruthy inp.total || cfg.minRows ≤ rows2.length then capReturn cfg.maxRows rows2
          else sweepPhase inp cfg rows2

/-- `collect_all_list_rows`: the accumulator starts as the page-1 rows
(inserted by `rows_all.extend(page1_rows)`, with no identity filter and
no per-row cap check); `if sample_n: return rows_all[:sample_n]`
shortcuts everything else. -/
def collect_all_list_rows (inp : NetInput) (cfg : Cfg) : List LRow :=
  if optTruthy cfg.sampleN then inp.page1.take (cfg.sampleN.getD 0)
  else collectBody inp cfg

/-! ### Lemmas about the string primitives -/

theorem normNLChars_cons_ne {c : Char} (hc : c ≠ '\r') (l : List Char) :
    normNLChars (c :: l) = c :: normNLChars l := by
  cases l <;> simp [normNLChars, hc]

/-- The CRLF/CR normalization leaves no carriage return behind. -/
theorem normNLChars_no_cr : ∀ l : List Char, '\r' ∉ normNLChars l := by
  intro l
  induction l using normNLChars.induct with
  | case1 => simp [normNLChars]
  | case2 rest ih => simp [normNLChars]; exact ih
  | case3 rest h ih => simp [normNLChars]; exact ih
  | case4 c rest h1 h2 ih =>
    have hc : c ≠ '\r' := by
      intro he; subst he
      cases rest with
      | nil => exact h2 rfl
      | cons b t =>
        by_cases hb : b = '\n'
        · exact h1 t rfl (by rw [hb])
        · exact h2 rfl
    rw [normNLChars_cons_ne hc]
    simp
    exact ⟨fun he => hc he.symm, ih⟩

/-- A CR-free list is a fixed point of the CRLF/CR normalization. -/
theorem normNLChars_of_no_cr : ∀ {l : List Char}, '\r' ∉ l → normNLChars l = l := by
  intro l
  induction l with
  | nil => intro _; rfl
  | cons c t ih =>
    intro h
    have hc : c ≠ '\r' := fun he => h (by simp [he])
    rw [normNLChars_cons_ne hc, ih (fun hm => h (List.mem_cons_of_mem _ hm))]

theorem normNLChars_idem (l : List Char) : normNLChars (normNLChars l) = normNLChars l :=
  normNLChars_of_no_cr (normNLChars_no_cr l)

/-- Every character of the stripped list comes from the original list. -/
theorem mem_of_mem_stripChars {c : Char} {l : List Char} (h : c ∈ stripChars l) : c ∈ l := by
  unfold stripChars at h
  rw [List.mem_reverse] at h
  have h2 := (List.dropWhile_suffix pyIsSpace).sublist.mem h
  rw [List.mem_reverse] at h2
  exact (List.dropWhile_suffix pyIsSpace).sublist.mem h2

theorem dropWhile_head_false {p : Char → Bool} : ∀ {l : List Char} {c : Char} {t : List Char},
    l.dropWhile p = c :: t → p c = false := by
  intro l
  induction l with
  | nil => intro c t h; simp [List.dropWhile] at h
  | cons a l ih =>
    intro c t h
    rw [List.dropWhile_cons] at h
    by_cases hp : p a
    · simp [hp] at h; exact ih h
    · simp [hp] at h
      rcases h with ⟨h1, _⟩
      subst h1; simpa using hp

/-- `stripChars` output is a prefix of the left-stripped list. -/
theorem stripChars_prefix (l : List Char) : stripChars l <+: l.dropWhile pyIsSpace := by
  unfold stripChars
  have hs : (l.dropWhile pyIsSpace).reverse.dropWhile pyIsSpace <:+ (l.dropWhile pyIsSpace).reverse :=
    List.dropWhile_suffix pyIsSpace
  have := List.reverse_prefix.mpr hs
  simpa using this

/-- Left-stripping a stripped list changes nothing. -/
theorem dropWhile_stripChars (l : List Char) :
    (stripChars l).dropWhile pyIsSpace = stripChars l := by
  cases hsc : stripChars l with
  | nil => rfl
  | cons c t =>
    have hpre := stripChars_prefix l
    rw [hsc] at hpre
    rcases hpre with ⟨u, hu⟩
    have hc : pyIsSpace c = false := dropWhile_head_false hu.symm
    rw [List.dropWhile_cons, hc]
    simp

theorem stripChars_eq (l : List Char) :
    stripChars l = ((l.dropWhile pyIsSpace).reverse.dropWhile pyIsSpace).reverse := rfl

/-- Python `strip` is idempotent. -/
theorem stripChars_idem (l : List Char) : stripChars (stripChars l) = stripChars l := by
  rw [stripChars_eq (stripChars l), dropWhile_stripChars l, stripChars_eq l,
    List.reverse_reverse, List.dropWhile_idempotent]

theorem normVal_data (s : String) : (normVal s).data = stripChars (normNLChars s.data) := rfl

/-- The normalized value has no carriage returns. -/
theorem normVal_no_cr (s : String) : '\r' ∉ (normVal s).data := by
  rw [normVal_data]
  intro h
  exact normNLChars_no_cr s.data (mem_of_mem_stripChars h)

/-- The normalized value is already stripped. -/
theorem normVal_stripped (s : String) : stripChars (normVal s).data = (normVal s).data := by
  rw [normVal_data, stripChars_idem]

/-- The value normalization of `canon_row` is idempotent. -/
theorem normVal_idem (s : String) : normVal (normVal s) = normVal s := by
  apply String.ext
  rw [normVal_data (normVal s), normNLChars_of_no_cr (normVal_no_cr s)]
  exact normVal_stripped s

/-! ### Lemmas about `canon_row` and `row_hash` -/

theorem lookup_pair_cons {β : Type} (k a : String) (b : β) (es : List (String × β)) :
    ((a, b) :: es).lookup k = if k = a then some b else es.lookup k := by
  by_cases h : k = a
  · subst h; simp [List.lookup]
  · have hb : (k == a) = false := beq_eq_false_iff_ne.mpr h
    simp [List.lookup, hb, h]

theorem lookup_map_self {β : Type} (f : String → β) :
    ∀ (ks : List String) (k : String), k ∈ ks →
      (ks.map (fun x => (x, f x))).lookup k = some (f k) := by
  intro ks
  induction ks with
  | nil => intro k h; cases h
  | cons a t ih =>
    intro k h
    by_cases hk : k = a
    · subst hk; simp [lookup_pair_cons]
    · have ht : k ∈ t := by
        rcases List.mem_cons.mp h with h1 | h1
        · exact absurd h1 hk
        · exact h1
      simp [lookup_pair_cons, hk, ih k ht]

theorem getOr_map_self (f : String → String) (ks : List String) (k : String) (h : k ∈ ks) :
    getOr (ks.map (fun x => (x, f x))) k = f k := by
  unfold getOr
  rw [lookup_map_self f ks k h]

/-- `canon_row` is the canonical-key table of `canonVal`. -/
theorem canon_row_eq (row : PRow) :
    canon_row row = CANON_KEYS.map (fun k => (k, canonVal row k)) := by
  unfold canon_row
  have hb : getOr (CANON_KEYS.map fun k => (k, normVal (getOr row k)))
      "Biosimilar Biologic Drug" = normVal (getOr row "Biosimilar Biologic Drug") :=
    getOr_map_self _ _ _ (by decide)
  by_cases hcond : normVal (getOr row "Biosimilar Biologic Drug") = ""
  · rw [if_pos (by rw [hb]; exact hcond)]
    unfold dictSet
    rw [if_pos]
    · rw [List.map_map]
      apply List.map_congr_left
      intro k hk
      by_cases hkb : k = "Biosimilar Biologic Drug"
      · subst hkb
        simp only [Function.comp]
        rw [if_pos (by simp)]
        unfold canonVal
        rw [if_pos ⟨rfl, hcond⟩]
      · simp only [Function.comp]
        rw [if_neg (by simpa using hkb)]
        unfold canonVal
        rw [if_neg (by intro hc; exact hkb hc.1)]
    · rw [List.any_eq_true]
      exact ⟨_, List.mem_map_of_mem _ (show "Biosimilar Biologic Drug" ∈ CANON_KEYS by decide),
        by simp⟩
  · rw [if_neg (by rw [hb]; exact hcond)]
    apply List.map_congr_left
    intro k hk
    by_cases hkb : k = "Biosimilar Biologic Drug"
    · subst hkb
      unfold canonVal
      rw [if_neg (by intro hc; exact hcond hc.2)]
    · unfold canonVal
      rw [if_neg (by intro hc; exact hkb hc.1)]

/-- The key set of a canonicalized row is exactly `CANON_KEYS`. -/
theorem canon_row_keys (row : PRow) : (canon_row row).map Prod.fst = CANON_KEYS := by
  rw [canon_row_eq, List.map_map]
  exact List.map_id CANON_KEYS

theorem getOr_canon_row (row : PRow) (k : String) (h : k ∈ CANON_KEYS) :
    getOr (canon_row row) k = canonVal row k := by
  rw [canon_row_eq]
  exact getOr_map_self _ _ _ h

/-- Stored values are fixed points of the value normalization. -/
theorem canonVal_normVal (row : PRow) (k : String) :
    normVal (canonVal row k) = canonVal row k := by
  unfold canonVal
  split
  · decide
  · exact normVal_idem _

/-- The biosimilar field is never stored empty. -/
theorem canonVal_biosim_ne (row : PRow) :
    canonVal row "Biosimilar Biologic Drug" ≠ "" := by
  unfold canonVal
  split
  · decide
  · rename_i hc
    intro he
    exact hc ⟨rfl, he⟩

theorem canonVal_canon_row (row : PRow) (k : String) (hk : k ∈ CANON_KEYS) :
    canonVal (canon_row row) k = canonVal row k := by
  conv_lhs => unfold canonVal
  rw [getOr_canon_row row k hk, canonVal_normVal]
  by_cases hkb : k = "Biosimilar Biologic Drug"
  · subst hkb
    rw [if_neg (by intro hc; exact canonVal_biosim_ne row hc.2)]
  · rw [if_neg (by intro hc; exact hkb hc.1)]

/-- `canon_row` is idempotent. -/
theorem canon_row_idem (row : PRow) : canon_row (canon_row row) = canon_row row := by
  rw [canon_row_eq (canon_row row)]
  rw [List.map_congr_left (fun k hk => by rw [canonVal_canon_row row k hk])]
  rw [← canon_row_eq]

/-- Canonicalizing before hashing changes nothing. -/
theorem row_hash_canon_row (row : PRow) : row_hash (canon_row row) = row_hash row := by
  unfold row_hash
  rw [canon_row_idem]

/-! ### Invariance of the fingerprint under representation changes -/

theorem normNLChars_cr_cons {rest : List Char} (h : ∀ t, rest ≠ '\n' :: t) :
    normNLChars ('\r' :: rest) = '\n' :: normNLChars rest := by
  cases rest with
  | nil => rfl
  | cons c t =>
    have hc : c ≠ '\n' := fun he => h t (by rw [he])
    simp [normNLChars, hc]

theorem normNLChars_append_left {a : List Char} (ha : '\r' ∉ a) (x : List Char) :
    normNLChars (a ++ x) = a ++ normNLChars x := by
  induction a with
  | nil => rfl
  | cons c t ih =>
    have hc : c ≠ '\r' := fun he => ha (by simp [he])
    have ht : '\r' ∉ t := fun hm => ha (List.mem_cons_of_mem _ hm)
    rw [List.cons_append, normNLChars_cons_ne hc, ih ht, List.cons_append]

/-- Appending CR-and-LF-free characters (e.g. spaces and tabs) on the
right commutes with the CRLF/CR normalization. -/
theorem normNLChars_append_right {b : List Char} (hb : ∀ c ∈ b, c ≠ '\r' ∧ c ≠ '\n') :
    ∀ x : List Char, normNLChars (x ++ b) = normNLChars x ++ b := by
  intro x
  induction x using normNLChars.induct with
  | case1 =>
    simp only [List.nil_append, normNLChars]
    exact normNLChars_of_no_cr (fun hm => (hb _ hm).1 rfl)
  | case2 rest ih =>
    rw [List.cons_append, List.cons_append]
    show normNLChars ('\r' :: '\n' :: (rest ++ b)) = _
    rw [show normNLChars ('\r' :: '\n' :: (rest ++ b)) = '\n' :: normNLChars (rest ++ b) from rfl,
      ih]
    rfl
  | case3 rest h ih =>
    rw [List.cons_append]
    have hnb : ∀ t, rest ++ b ≠ '\n' :: t := by
      intro t he
      cases rest with
      | nil =>
        simp only [List.nil_append] at he
        exact (hb '\n' (he ▸ List.mem_cons_self _ _)).2 rfl
      | cons c r =>
        rw [List.cons_append] at he
        exact h r (by rw [List.cons.injEq] at he; rw [he.1])
    rw [normNLChars_cr_cons hnb, ih, normNLChars_cr_cons (fun t he => h t he), List.cons_append]
  | case4 c rest h1 h2 ih =>
    have hc : c ≠ '\r' := by
      intro he; subst he
      cases rest with
      | nil => exact h2 rfl
      | cons b' t =>
        by_cases hbn : b' = '\n'
        · exact h1 t rfl (by rw [hbn])
        · exact h2 rfl
    rw [List.cons_append, normNLChars_cons_ne hc, ih, normNLChars_cons_ne hc, List.cons_append]

theorem dropWhile_append_of_all {a : List Char} (ha : ∀ c ∈ a, pyIsSpace c) (y : List Char) :
    (a ++ y).dropWhile pyIsSpace = y.dropWhile pyIsSpace := by
  induction a with
  | nil => rfl
  | cons c t ih =>
    rw [List.cons_append, List.dropWhile_cons, if_pos (ha c (List.mem_cons_self c t))]
    exact ih (fun c' hm => ha c' (List.mem_cons_of_mem _ hm))

/-- Whitespace appended on the left is stripped away. -/
theorem stripChars_append_left {a : List Char} (ha : ∀ c ∈ a, pyIsSpace c) (y : List Char) :
    stripChars (a ++ y) = stripChars y := by
  rw [stripChars_eq, stripChars_eq, dropWhile_append_of_all ha]

/-- Whitespace appended on the right is stripped away. -/
theorem stripChars_append_right {b : List Char} (hb : ∀ c ∈ b, pyIsSpace c) (y : List Char) :
    stripChars (y ++ b) = stripChars y := by
  rw [stripChars_eq, stripChars_eq, List.dropWhile_append]
  by_cases hy : (y.dropWhile pyIsSpace).isEmpty
  · rw [if_pos hy]
    rw [List.dropWhile_eq_nil_iff.mpr hb]
    rw [List.isEmpty_iff.mp hy]
  · rw [if_neg hy, List.reverse_append,
      dropWhile_append_of_all (fun c hm => hb c (List.mem_reverse.mp hm))]

/-- Padding a value with spaces/tabs does not change its normalized
form. -/
theorem normVal_pad {a b : String} (ha : ∀ c ∈ a.data, c = ' ' ∨ c = '\t')
    (hb : ∀ c ∈ b.data, c = ' ' ∨ c = '\t') (v : String) :
    normVal (a ++ v ++ b) = normVal v := by
  apply String.ext
  rw [normVal_data, normVal_data]
  have hcr : '\r' ∉ a.data := by
    intro hm; rcases ha _ hm with h | h <;> simp at h
  have hb2 : ∀ c ∈ b.data, c ≠ '\r' ∧ c ≠ '\n' := by
    intro c hm
    rcases hb c hm with h | h <;> subst h <;> exact ⟨by decide, by decide⟩
  have hdata : (a ++ v ++ b).data = a.data ++ (v.data ++ b.data) := by
    rw [String.data_append, String.data_append, List.append_assoc]
  rw [hdata, normNLChars_append_left hcr, normNLChars_append_right hb2,
    stripChars_append_left (fun c hm => by rcases ha c hm with h | h <;> simp [h, pyIsSpace]),
    stripChars_append_right (fun c hm => by rcases hb c hm with h | h <;> simp [h, pyIsSpace])]

theorem lookup_mapVals (f : String → String) (r : PRow) (k : String) :
    (mapVals f r).lookup k = (r.lookup k).map f := by
  induction r with
  | nil => rfl
  | cons p t ih =>
    obtain ⟨a, b⟩ := p
    by_cases h : k = a
    · simp [mapVals, lookup_pair_cons, h]
    · simp [mapVals, lookup_pair_cons, h]
      simpa [mapVals] using ih

/-- If a value transformation is invisible to the normalizer, it is
invisible to `canon_row`. -/
theorem canon_row_mapVals {f : String → String} (hf : ∀ v, normVal (f v) = normVal v)
    (r : PRow) : canon_row (mapVals f r) = canon_row r := by
  rw [canon_row_eq, canon_row_eq]
  apply List.map_congr_left
  intro k _
  have hv : normVal (getOr (mapVals f r) k) = normVal (getOr r k) := by
    unfold getOr
    rw [lookup_mapVals]
    cases hl : r.lookup k with
    | none => simp
    | some v => simp [hf v]
  unfold canonVal
  rw [hv]

/-- On duplicate-free key sets (the Python dict invariant), lookups are
invariant under permutation of the entries. -/
theorem lookup_eq_of_perm {β : Type} {l₁ l₂ : List (String × β)} (h : l₁.Perm l₂)
    (hn : (l₁.map Prod.fst).Nodup) : ∀ k, l₁.lookup k = l₂.lookup k := by
  induction h with
  | nil => intro _; rfl
  | cons x h ih =>
    intro k
    obtain ⟨a, b⟩ := x
    rw [lookup_pair_cons, lookup_pair_cons]
    by_cases hk : k = a
    · rw [if_pos hk, if_pos hk]
    · rw [if_neg hk, if_neg hk]
      exact ih (by simpa using (List.nodup_cons.mp (by simpa using hn)).2) k
  | swap x y l =>
    intro k
    obtain ⟨a, b⟩ := x
    obtain ⟨c, d⟩ := y
    have hac : c ≠ a := by
      have hcopy := hn
      simp only [List.map_cons, List.nodup_cons, List.mem_cons] at hcopy
      exact fun he => hcopy.1 (Or.inl he)
    rw [lookup_pair_cons, lookup_pair_cons, lookup_pair_cons, lookup_pair_cons]
    by_cases h1 : k = c
    · have hka : k ≠ a := by
        intro h2
        exact hac (by rw [← h1]; exact h2)
      rw [if_pos h1, if_neg hka, if_pos h1]
    · rw [if_neg h1]
      by_cases h2 : k = a
      · rw [if_pos h2, if_pos h2]
      · rw [if_neg h2, if_neg h2, if_neg h1]
  | trans h1 _ ih1 ih2 =>
    intro k
    rw [ih1 hn k, ih2 (((h1.map Prod.fst).nodup_iff).mp hn) k]

/-- Permuting the fields of a (duplicate-free) row does not change
`canon_row`. -/
theorem canon_row_perm {r₁ r₂ : PRow} (h : r₁.Perm r₂) (hn : (r₁.map Prod.fst).Nodup) :
    canon_row r₁ = canon_row r₂ := by
  rw [canon_row_eq, canon_row_eq]
  apply List.map_congr_left
  intro k _
  unfold canonVal getOr
  rw [lookup_eq_of_perm h hn k]

/-! ### Association-list lemmas for the diff engine -/

theorem lookup_eq_none_iff {β : Type} {l : List (String × β)} {k : String} :
    l.lookup k = none ↔ k ∉ l.map Prod.fst := by
  induction l with
  | nil => simp
  | cons p t ih =>
    obtain ⟨a, b⟩ := p
    by_cases h : k = a <;> simp [lookup_pair_cons, h, ih]

theorem lookup_isSome_iff {β : Type} {l : List (String × β)} {k : String} :
    (l.lookup k).isSome = true ↔ k ∈ l.map Prod.fst := by
  rw [← not_iff_not]
  simp only [Bool.not_eq_true, Option.not_isSome, Option.isNone_iff_eq_none]
  exact lookup_eq_none_iff

theorem mem_of_lookup {β : Type} {l : List (String × β)} {k : String} {v : β}
    (h : l.lookup k = some v) : (k, v) ∈ l := by
  induction l with
  | nil => cases h
  | cons p t ih =>
    obtain ⟨a, b⟩ := p
    rw [lookup_pair_cons] at h
    by_cases hk : k = a
    · rw [if_pos hk] at h
      cases h
      subst hk
      exact List.mem_cons_self _ _
    · rw [if_neg hk] at h
      exact List.mem_cons_of_mem _ (ih h)

theorem lookup_of_mem_nodup {β : Type} {l : List (String × β)} {k : String} {v : β}
    (hm : (k, v) ∈ l) (hn : (l.map Prod.fst).Nodup) : l.lookup k = some v := by
  induction l with
  | nil => cases hm
  | cons p t ih =>
    obtain ⟨a, b⟩ := p
    simp only [List.map_cons, List.nodup_cons] at hn
    rcases List.mem_cons.mp hm with he | hm2
    · cases he
      rw [lookup_pair_cons, if_pos rfl]
    · have hk : k ≠ a := by
        intro he
        exact hn.1 (he ▸ (List.mem_map_of_mem Prod.fst hm2 : (k, v).1 ∈ t.map Prod.fst))
      rw [lookup_pair_cons, if_neg hk]
      exact ih hm2 hn.2

/-- `dictSet` never changes the key sequence when the key is present. -/
theorem dictSet_keys_of_mem {β : Type} {d : List (String × β)} {k : String} (v : β)
    (h : k ∈ d.map Prod.fst) : (dictSet d k v).map Prod.fst = d.map Prod.fst := by
  unfold dictSet
  rw [if_pos]
  · rw [List.map_map]
    apply List.map_congr_left
    intro p _
    by_cases hp : p.1 = k
    · simp [Function.comp, hp]
    · simp [Function.comp, hp]
  · rw [List.any_eq_true]
    rcases List.mem_map.mp h with ⟨p, hp, he⟩
    exact ⟨p, hp, by simp [he]⟩

/-- `dictSet` appends the key when it is absent. -/
theorem dictSet_keys_of_not_mem {β : Type} {d : List (String × β)} {k : String} (v : β)
    (h : k ∉ d.map Prod.fst) : (dictSet d k v).map Prod.fst = d.map Prod.fst ++ [k] := by
  unfold dictSet
  rw [if_neg]
  · simp
  · intro hc
    rw [List.any_eq_true] at hc
    rcases hc with ⟨p, hp, he⟩
    exact h (List.mem_map.mpr ⟨p, hp, by simpa using he⟩)

/-- `dictSet` preserves duplicate-freeness of the key sequence. -/
theorem dictSet_nodup {β : Type} {d : List (String × β)} {k : String} (v : β)
    (hn : (d.map Prod.fst).Nodup) : ((dictSet d k v).map Prod.fst).Nodup := by
  by_cases h : k ∈ d.map Prod.fst
  · rw [dictSet_keys_of_mem v h]; exact hn
  · rw [dictSet_keys_of_not_mem v h]
    refine List.nodup_append.mpr ⟨hn, List.nodup_singleton k, ?_⟩
    intro a ha hb
    rw [List.mem_singleton.mp hb] at ha
    exact h ha

/-- The keys of `new_by_din` are duplicate-free (it is a Python dict). -/
theorem newByDin_nodup (new_rows : List PRow) :
    ((newByDin new_rows).map Prod.fst).Nodup := by
  unfold newByDin
  suffices h : ∀ (rs : List PRow) (d : List (String × PRow)), (d.map Prod.fst).Nodup →
      ((rs.foldl (fun d r =>
        if getOr r "DIN" ≠ "" then dictSet d (getOr r "DIN") (canon_row r) else d) d).map
        Prod.fst).Nodup by
    exact h new_rows [] (by simp)
  intro rs
  induction rs with
  | nil => intro d hd; simpa using hd
  | cons r t ih =>
    intro d hd
    rw [List.foldl_cons]
    by_cases hr : getOr r "DIN" ≠ ""
    · rw [if_pos hr]
      exact ih _ (dictSet_nodup _ hd)
    · rw [if_neg hr]
      exact ih _ hd

theorem compute_diff_added (new_rows : List PRow) (bl : List (String × PRow)) :
    (compute_diff new_rows bl).added = (newByDin new_rows).filterMap (fun p =>
      match bl.lookup p.1 with
      | none => some (p.1, p.2)
      | some _ => none) := rfl

theorem compute_diff_modified (new_rows : List PRow) (bl : List (String × PRow)) :
    (compute_diff new_rows bl).modified = (newByDin new_rows).filterMap (fun p =>
      match bl.lookup p.1 with
      | none => none
      | some br => if row_hash p.2 = row_hash br then none else some (p.1, br, p.2)) := rfl

theorem compute_diff_removed (new_rows : List PRow) (bl : List (String × PRow)) :
    (compute_diff new_rows bl).removed = bl.filterMap (fun q =>
      if ((newByDin new_rows).lookup q.1).isSome then none else some q) := rfl

/-- The identities reported as `added` are exactly the new identities the
baseline does not know. -/
theorem added_keys (rs : List PRow) (bl : List (String × PRow)) :
    (compute_diff rs bl).added.map Prod.fst
      = ((newByDin rs).map Prod.fst).filter (fun d => (bl.lookup d).isNone) := by
  rw [compute_diff_added]
  generalize newByDin rs = l
  induction l with
  | nil => rfl
  | cons p t ih =>
    cases hl : bl.lookup p.1 with
    | none => simp [List.filterMap_cons, List.filter_cons, hl, ih]
    | some w => simp [List.filterMap_cons, List.filter_cons, hl, ih]

/-- The records reported as `removed` are exactly the baseline entries
whose identity the new set does not contain. -/
theorem removed_eq (rs : List PRow) (bl : List (String × PRow)) :
    (compute_diff rs bl).removed = bl.filter (fun q => ((newByDin rs).lookup q.1).isNone) := by
  rw [compute_diff_removed]
  induction bl with
  | nil => rfl
  | cons q t ih =>
    cases hq : (newByDin rs).lookup q.1 with
    | none => simp [List.filterMap_cons, List.filter_cons, hq, ih]
    | some w => simp [List.filterMap_cons, List.filter_cons, hq, ih]

theorem modified_keys (rs : List PRow) (bl : List (String × PRow)) :
    (compute_diff rs bl).modified.map Prod.fst = (newByDin rs).filterMap (fun p =>
      match bl.lookup p.1 with
      | none => none
      | some br => if row_hash p.2 = row_hash br then none else some p.1) := by
  rw [compute_diff_modified]
  generalize newByDin rs = l
  induction l with
  | nil => rfl
  | cons p t ih =>
    cases hl : bl.lookup p.1 with
    | none => simp [List.filterMap_cons, hl, ih]
    | some br =>
      by_cases hh : row_hash p.2 = row_hash br <;>
        simp [List.filterMap_cons, hl, hh, ih]

theorem mem_added_keys_iff {rs : List PRow} {bl : List (String × PRow)} {d : String} :
    d ∈ (compute_diff rs bl).added.map Prod.fst ↔
      d ∈ (newByDin rs).map Prod.fst ∧ bl.lookup d = none := by
  rw [added_keys, List.mem_filter, Option.isNone_iff_eq_none]

theorem mem_removed_keys_iff {rs : List PRow} {bl : List (String × PRow)} {d : String} :
    d ∈ (compute_diff rs bl).removed.map Prod.fst ↔
      d ∈ bl.map Prod.fst ∧ (newByDin rs).lookup d = none := by
  rw [removed_eq]
  constructor
  · intro hm
    rcases List.mem_map.mp hm with ⟨q, hq, hqd⟩
    rcases List.mem_filter.mp hq with ⟨hql, hqc⟩
    subst hqd
    exact ⟨List.mem_map_of_mem Prod.fst hql, Option.isNone_iff_eq_none.mp hqc⟩
  · rintro ⟨hm, hl⟩
    rcases List.mem_map.mp hm with ⟨q, hq, hqd⟩
    subst hqd
    exact List.mem_map_of_mem Prod.fst
      (List.mem_filter.mpr ⟨hq, by rw [hl]; rfl⟩)

theorem mem_modified_keys_iff {rs : List PRow} {bl : List (String × PRow)} {d : String} :
    d ∈ (compute_diff rs bl).modified.map Prod.fst ↔
      ∃ v w, (newByDin rs).lookup d = some v ∧ bl.lookup d = some w ∧
        row_hash v ≠ row_hash w := by
  rw [modified_keys, List.mem_filterMap]
  constructor
  · rintro ⟨p, hp, hfp⟩
    cases hl : bl.lookup p.1 with
    | none => rw [hl] at hfp; cases hfp
    | some br =>
      rw [hl] at hfp
      have hfp2 : (if row_hash p.2 = row_hash br then none else some p.1) = some d := hfp
      by_cases hh : row_hash p.2 = row_hash br
      · rw [if_pos hh] at hfp2; cases hfp2
      · rw [if_neg hh] at hfp2
        cases hfp2
        exact ⟨p.2, br, lookup_of_mem_nodup hp (newByDin_nodup rs), hl, hh⟩
  · rintro ⟨v, w, hv, hw, hh⟩
    refine ⟨(d, v), mem_of_lookup hv, ?_⟩
    show (match bl.lookup d with
      | none => none
      | some br => if row_hash v = row_hash br then none else some d) = some d
    rw [hw]
    show (if row_hash v = row_hash w then none else some d) = some d
    rw [if_neg hh]

theorem length_filterMap_disjoint {α β γ : Type} (f : α → Option β) (g : α → Option γ)
    (h : ∀ x, f x = none ∨ g x = none) :
    ∀ l : List α, (l.filterMap f).length + (l.filterMap g).length ≤ l.length := by
  intro l
  induction l with
  | nil => simp
  | cons a t ih =>
    cases hf : f a with
    | none =>
      cases hg : g a with
      | none =>
        simp only [List.filterMap_cons, hf, hg, List.length_cons]
        omega
      | some c =>
        simp only [List.filterMap_cons, hf, hg, List.length_cons]
        omega
    | some b =>
      have hg : g a = none := by
        rcases h a with h2 | h2
        · rw [hf] at h2; cases h2
        · exact h2
      simp only [List.filterMap_cons, hf, hg, List.length_cons]
      omega

theorem map_fst_filter_key {β : Type} (cond : String → Bool) (l : List (String × β)) :
    (l.filter (fun q => cond q.1)).map Prod.fst = (l.map Prod.fst).filter cond := by
  induction l with
  | nil => rfl
  | cons q t ih =>
    by_cases h : cond q.1 = true
    · simp [List.filter_cons, h, ih]
    · simp [List.filter_cons, h, ih]

/-- The three diff partitions together never exceed the union of the
identity sets. -/
theorem diff_length_bound (rs : List PRow) (bl : List (String × PRow))
    (hb : (bl.map Prod.fst).Nodup) :
    (compute_diff rs bl).added.length + (compute_diff rs bl).removed.length +
        (compute_diff rs bl).modified.length ≤
      (((newByDin rs).map Prod.fst).toFinset ∪ (bl.map Prod.fst).toFinset).card := by
  have hAM : (compute_diff rs bl).added.length + (compute_diff rs bl).modified.length ≤
      (newByDin rs).length := by
    rw [compute_diff_added, compute_diff_modified]
    apply length_filterMap_disjoint
    intro p
    cases hl : bl.lookup p.1 with
    | none => right; rfl
    | some br => left; rfl
  have hnk : (newByDin rs).length = ((newByDin rs).map Prod.fst).toFinset.card := by
    rw [List.toFinset_card_of_nodup (newByDin_nodup rs), List.length_map]
  have hRlen : (compute_diff rs bl).removed.length =
      ((bl.map Prod.fst).filter
        (fun d => ((newByDin rs).lookup d).isNone)).length := by
    rw [removed_eq]
    rw [← map_fst_filter_key (fun d => ((newByDin rs).lookup d).isNone) bl, List.length_map]
  have hfilter_nodup : ((bl.map Prod.fst).filter
      (fun d => ((newByDin rs).lookup d).isNone)).Nodup := hb.filter _
  have hRcard : ((bl.map Prod.fst).filter
      (fun d => ((newByDin rs).lookup d).isNone)).length =
      ((bl.map Prod.fst).toFinset \ ((newByDin rs).map Prod.fst).toFinset).card := by
    rw [← List.toFinset_card_of_nodup hfilter_nodup]
    congr 1
    rw [List.toFinset_filter]
    apply Finset.ext
    intro d
    simp only [Finset.mem_filter, Finset.mem_sdiff, List.mem_toFinset,
      Option.isNone_iff_eq_none]
    rw [lookup_eq_none_iff]
  have hcard : (((newByDin rs).map Prod.fst).toFinset ∪ (bl.map Prod.fst).toFinset).card =
      ((newByDin rs).map Prod.fst).toFinset.card +
        ((bl.map Prod.fst).toFinset \ ((newByDin rs).map Prod.fst).toFinset).card := by
    rw [Finset.union_comm]
    rw [← Finset.card_sdiff_add_card (bl.map Prod.fst).toFinset
      ((newByDin rs).map Prod.fst).toFinset]
    omega
  omega

theorem canonVal_no_cr (row : PRow) (k : String) : '\r' ∉ (canonVal row k).data := by
  unfold canonVal
  split
  · decide
  · exact normVal_no_cr _

theorem canonVal_stripped (row : PRow) (k : String) :
    stripChars (canonVal row k).data = (canonVal row k).data := by
  unfold canonVal
  split
  · decide
  · exact normVal_stripped _

theorem normNL_idem (v : String) : normNL (normNL v) = normNL v := by
  apply String.ext
  exact normNLChars_idem v.data

theorem normVal_normNL (v : String) : normVal (normNL v) = normVal v := by
  unfold normVal
  rw [normNL_idem]

theorem newByDin_singleton (r : PRow) (hd : getOr r "DIN" ≠ "") :
    newByDin [r] = [(getOr r "DIN", canon_row r)] := by
  unfold newByDin
  rw [List.foldl_cons, List.foldl_nil, if_pos hd]
  rfl

theorem newByDin_singleton_empty (r : PRow) (hd : getOr r "DIN" = "") :
    newByDin [r] = [] := by
  unfold newByDin
  rw [List.foldl_cons, List.foldl_nil, if_neg (by simpa using hd)]

/-! ### Lemmas about the collection engine: the hard row cap -/

theorem capReturn_length {m : Nat} (hm : 0 < m) (rows : List LRow) :
    (capReturn m rows).length ≤ m := by
  unfold capReturn
  by_cases h : hitCap m rows = true
  · rw [if_pos h]
    simp [List.length_take]
  · rw [if_neg h]
    unfold hitCap at h
    simp only [Bool.and_eq_true, decide_eq_true_eq] at h
    omega

/-- Every early cap return of the pagination probe is truncated. -/
theorem probeLoop_error_length {m : Nat} {page1 : List LRow} :
    ∀ {resps : List (Option (List LRow))} {i : Nat} {rows res : List LRow},
      probeLoop m page1 resps i rows = .error res → res.length ≤ m := by
  intro resps
  induction resps with
  | nil => intro i rows res h; simp [probeLoop] at h
  | cons o rest ih =>
    intro i rows res h
    cases o with
    | none =>
      rw [probeLoop] at h
      exact ih h
    | some r2 =>
      simp only [probeLoop] at h
      split at h
      · split at h
        · simp only [Except.error.injEq] at h
          subst h
          simp [List.length_take]
        · simp at h
      · exact ih h

/-- Every early cap return of the pagination drain is truncated. -/
theorem drainLoop_error_length {m sl : Nat} {fetch : Nat → Option (List LRow)} :
    ∀ {pages : List Nat} {stall : Nat} {rows res : List LRow},
      drainLoop m sl fetch pages stall rows = .error res → res.length ≤ m := by
  intro pages
  induction pages with
  | nil => intro stall rows res h; simp [drainLoop] at h
  | cons p rest ih =>
    intro stall rows res h
    simp only [drainLoop] at h
    split at h
    · simp at h
    · split at h
      · simp at h
      · split at h
        · split at h
          · simp at h
          · split at h
            · simp only [Except.error.injEq] at h
              subst h
              simp [List.length_take]
            · exact ih h
        · split at h
          · simp only [Except.error.injEq] at h
            subst h
            simp [List.length_take]
          · exact ih h

/-- Both exits of the shard-sweep phase are capped. -/
theorem sweepPhase_length {inp : NetInput} {cfg : Cfg} (hm : 0 < cfg.maxRows)
    (rows : List LRow) : (sweepPhase inp cfg rows).length ≤ cfg.maxRows := by
  simp only [sweepPhase]
  split
  · split
    · exact capReturn_length hm _
    · exact capReturn_length hm _
  · split
    · exact capReturn_length hm _
    · exact capReturn_length hm _

/-- Every branch of `collectBody` returns at most `max_rows` rows. -/
theorem collectBody_length {inp : NetInput} {cfg : Cfg} (hm : 0 < cfg.maxRows) :
    (collectBody inp cfg).length ≤ cfg.maxRows := by
  simp only [collectBody]
  split
  · simp [List.length_take]
  · split
    · exact sweepPhase_length hm _
    · split
      · rename_i res heq
        exact probeLoop_error_length heq
      · exact sweepPhase_length hm _
      · rename_i i rows1 heq
        split
        · rename_i res heq2
          exact drainLoop_error_length heq2
        · split
          · exact capReturn_length hm _
          · exact sweepPhase_length hm _

/-! ### Lemmas about the collection engine: identity hygiene -/

theorem capReturn_good {m : Nat} {rows : List LRow}
    (h : ∀ r ∈ rows, canon_din r.din ≠ "") :
    ∀ r ∈ capReturn m rows, canon_din r.din ≠ "" := by
  unfold capReturn
  split
  · exact fun r hr => h r ((List.take_sublist _ _).subset hr)
  · exact h

/-- The dedup insert only ever appends rows whose canonical identity is
nonempty. -/
theorem insertChunk_good :
    ∀ {chunk rows : List LRow}, (∀ r ∈ rows, canon_din r.din ≠ "") →
      ∀ r ∈ (insertChunk rows chunk).1, canon_din r.din ≠ "" := by
  intro chunk
  induction chunk with
  | nil => intro rows h; simpa [insertChunk] using h
  | cons rr rest ih =>
    intro rows h
    simp only [insertChunk]
    split
    · rename_i hc
      simp only [Bool.and_eq_true, decide_eq_true_eq] at hc
      exact ih (fun r' hr' => by
        rcases List.mem_append.mp hr' with h1 | h1
        · exact h r' h1
        · rw [List.mem_singleton.mp h1]; exact hc.1)
    · exact ih h

/-- The per-row-capped sweep insert likewise only appends rows with a
nonempty canonical identity. -/
theorem sweepInsert_good {m : Nat} :
    ∀ {chunk rows : List LRow} {added : Nat}, (∀ r ∈ rows, canon_din r.din ≠ "") →
      ∀ r ∈ (sweepInsert m rows chunk added).1, canon_din r.din ≠ "" := by
  intro chunk
  induction chunk with
  | nil => intro rows added h; simpa [sweepInsert] using h
  | cons rr rest ih =>
    intro rows added h
    simp only [sweepInsert]
    split
    · rename_i hc
      simp only [Bool.and_eq_true, decide_eq_true_eq] at hc
      have h2 : ∀ r' ∈ rows ++ [rr], canon_din r'.din ≠ "" := fun r' hr' => by
        rcases List.mem_append.mp hr' with h1 | h1
        · exact h r' h1
        · rw [List.mem_singleton.mp h1]; exact hc.1
      split
      · simpa using h2
      · exact ih h2
    · exact ih h

theorem sweepPages_good {m sl : Nat} {fetch : Nat → List LRow} :
    ∀ {pages : List Nat} {stall addedTotal : Nat} {sawAny : Bool} {rows : List LRow},
      (∀ r ∈ rows, canon_din r.din ≠ "") →
      ∀ r ∈ (sweepPages m sl fetch pages stall addedTotal sawAny rows).1,
        canon_din r.din ≠ "" := by
  intro pages
  induction pages with
  | nil => intro _ _ _ rows h; simpa [sweepPages] using h
  | cons p rest ih =>
    intro stall addedTotal sawAny rows h
    simp only [sweepPages]
    split
    · simpa using h
    · split
      · exact fun r hr => sweepInsert_good h r hr
      · split
        · split
          · exact fun r hr => sweepInsert_good h r hr
          · exact ih (sweepInsert_good h)
        · exact ih (sweepInsert_good h)

theorem sweep_one_good {m sl spl : Nat} {fetch : Nat → List LRow} {rows : List LRow}
    (h : ∀ r ∈ rows, canon_din r.din ≠ "") :
    ∀ r ∈ (sweep_one m sl spl fetch rows).1, canon_din r.din ≠ "" := by
  simp only [sweep_one]
  split
  · exact sweepPages_good h
  · split
    · exact fun r hr => sweepInsert_good h r hr
    · exact sweepPages_good (sweepInsert_good h)

theorem runPrefixGroup_good {m sl spl me : Nat} {fetch : String → Nat → List LRow} :
    ∀ {vals : List String} {streak : Nat} {rows : List LRow},
      (∀ r ∈ rows, canon_din r.din ≠ "") →
      ∀ r ∈ (runPrefixGroup m sl spl me fetch vals streak rows).2,
        canon_din r.din ≠ "" := by
  intro vals
  induction vals with
  | nil => intro _ rows h; simpa [runPrefixGroup] using h
  | cons v rest ih =>
    intro streak rows h
    simp only [runPrefixGroup]
    split
    · split
      · exact fun r hr => sweep_one_good h r hr
      · split
        · exact fun r hr => sweep_one_good h r hr
        · exact ih (sweep_one_good h)
    · split
      · exact fun r hr => sweep_one_good h r hr
      · exact ih (sweep_one_good h)

theorem sweepPhase_good {inp : NetInput} {cfg : Cfg} {rows : List LRow}
    (h : ∀ r ∈ rows, canon_din r.din ≠ "") :
    ∀ r ∈ sweepPhase inp cfg rows, canon_din r.din ≠ "" := by
  simp only [sweepPhase]
  split
  · split
    · exact capReturn_good (runPrefixGroup_good h)
    · exact capReturn_good (runPrefixGroup_good (runPrefixGroup_good h))
  · split
    · exact capReturn_good (runPrefixGroup_good h)
    · exact capReturn_good (runPrefixGroup_good (runPrefixGroup_good h))

theorem probeLoop_good {m : Nat} {page1 : List LRow} :
    ∀ {resps : List (Option (List LRow))} {i : Nat} {rows : List LRow},
      (∀ r ∈ rows, canon_din r.din ≠ "") →
      (∀ res, probeLoop m page1 resps i rows = .error res →
        ∀ r ∈ res, canon_din r.din ≠ "") ∧
      (∀ o rows', probeLoop m page1 resps i rows = .ok (o, rows') →
        ∀ r ∈ rows', canon_din r.din ≠ "") := by
  intro resps
  induction resps with
  | nil =>
    intro i rows h
    constructor
    · intro res he; simp [probeLoop] at he
    · intro o rows' he
      rw [probeLoop] at he
      cases he
      exact h
  | cons oc rest ih =>
    intro i rows h
    cases oc with
    | none =>
      constructor
      · intro res he
        rw [probeLoop] at he
        exact (ih h).1 res he
      · intro o rows' he
        rw [probeLoop] at he
        exact (ih h).2 o rows' he
    | some r2 =>
      constructor
      · intro res he
        simp only [probeLoop] at he
        split at he
        · split at he
          · simp only [Except.error.injEq] at he
            subst he
            exact fun r hr => insertChunk_good h r ((List.take_sublist _ _).subset hr)
          · simp at he
        · exact (ih h).1 res he
      · intro o rows' he
        simp only [probeLoop] at he
        split at he
        · split at he
          · simp at he
          · simp only [Except.ok.injEq, Prod.mk.injEq] at he
            rw [← he.2]
            exact insertChunk_good h
        · exact (ih h).2 o rows' he

theorem drainLoop_good {m sl : Nat} {fetch : Nat → Option (List LRow)} :
    ∀ {pages : List Nat} {stall : Nat} {rows : List LRow},
      (∀ r ∈ rows, canon_din r.din ≠ "") →
      (∀ res, drainLoop m sl fetch pages stall rows = .error res →
        ∀ r ∈ res, canon_din r.din ≠ "") ∧
      (∀ rows', drainLoop m sl fetch pages stall rows = .ok rows' →
        ∀ r ∈ rows', canon_din r.din ≠ "") := by
  intro pages
  induction pages with
  | nil =>
    intro stall rows h
    constructor
    · intro res he; simp [drainLoop] at he
    · intro rows' he
      rw [drainLoop] at he
      cases he
      exact h
  | cons p rest ih =>
    intro stall rows h
    constructor
    · intro res he
      simp only [drainLoop] at he
      split at he
      · simp at he
      · split at he
        · simp at he
        · split at he
          · split at he
            · simp at he
            · split at he
              · simp only [Except.error.injEq] at he
                subst he
                exact fun r hr => insertChunk_good h r ((List.take_sublist _ _).subset hr)
              · exact (ih (insertChunk_good h)).1 res he
          · split at he
            · simp only [Except.error.injEq] at he
              subst he
              exact fun r hr => insertChunk_good h r ((List.take_sublist _ _).subset hr)
            · exact (ih (insertChunk_good h)).1 res he
    · intro rows' he
      simp only [drainLoop] at he
      split at he
      · cases he; exact h
      · split at he
        · cases he; exact h
        · split at he
          · split at he
            · cases he
              exact insertChunk_good h
            · split at he
              · simp at he
              · exact (ih (insertChunk_good h)).2 rows' he
          · split at he
            · simp at he
            · exact (ih (insertChunk_good h)).2 rows' he

/-! ### Lemmas about the collection engine: loop mechanics -/

/-- A page that contributes zero insertions leaves the accumulator
unchanged. -/
theorem insertChunk_zero :
    ∀ {chunk rows : List LRow}, (insertChunk rows chunk).2 = 0 →
      (insertChunk rows chunk).1 = rows := by
  intro chunk
  induction chunk with
  | nil => intro rows _; rfl
  | cons rr rest ih =>
    intro rows h
    by_cases hc : (canon_din rr.din ≠ "" && !((seenOf rows).contains (canon_din rr.din))) = true
    · rw [insertChunk, if_pos hc] at h
      simp at h
    · rw [insertChunk, if_neg hc] at h
      rw [insertChunk, if_neg hc]
      exact ih h

/-- Once a shard has seen rows, `_sweep_one` reports `saw_any = True`. -/
theorem sweepPages_sawAny {m sl : Nat} {fetch : Nat → List LRow} :
    ∀ {pages : List Nat} {stall addedT : Nat} {rows : List LRow},
      (sweepPages m sl fetch pages stall addedT true rows).2.2 = true := by
  intro pages
  induction pages with
  | nil => intro stall addedT rows; rfl
  | cons p rest ih =>
    intro stall addedT rows
    simp only [sweepPages]
    split
    · rfl
    · split
      · rfl
      · split
        · split
          · rfl
          · exact ih
        · exact ih

/-- A shard whose every page is empty is recorded as fully empty: no
rows added, `saw_any = False`. -/
theorem sweep_one_all_empty {m sl spl : Nat} {fetch : Nat → List LRow}
    (hf : ∀ p, fetch p = []) (rows : List LRow) :
    sweep_one m sl spl fetch rows = (rows, 0, false) := by
  have hpages : ∀ pages : List Nat, sweepPages m sl fetch pages 0 0 false rows
      = (rows, 0, false) := by
    intro pages
    cases pages with
    | nil => rfl
    | cons p ps =>
      simp only [sweepPages]
      rw [hf p]
      rw [if_pos (show ([] : List LRow).isEmpty = true from rfl)]
  simp only [sweep_one]
  rw [hf 1, if_pos (show ([] : List LRow).isEmpty = true from rfl)]
  exact hpages _

/-- A shard whose first page has rows is not empty: `saw_any = True`. -/
theorem sweep_one_sawAny {m sl spl : Nat} {fetch : Nat → List LRow} {rows : List LRow}
    (h : fetch 1 ≠ []) : (sweep_one m sl spl fetch rows).2.2 = true := by
  have hne : (fetch 1).isEmpty = false := by
    cases hf : fetch 1 with
    | nil => exact absurd hf h
    | cons a t => rfl
  simp only [sweep_one]
  rw [if_neg (by rw [hne]; exact Bool.false_ne_true)]
  split
  · rfl
  · exact sweepPages_sawAny

/-- `hitCap` never fires when the cap is 0 (unlimited). -/
theorem hitCap_zero (rows : List LRow) : hitCap 0 rows = false := by
  simp [hitCap]

/-! ### Lemmas about the pagination probe -/

/-- The probe's acceptance test succeeds exactly when the candidate's
page-2 response contains a row whose raw DIN does not occur among the
raw DINs of page 1. -/
theorem probeAccepts_iff (page1 r2 : List LRow) :
    probeAccepts page1 r2 = true ↔ ∃ r ∈ r2, r.din ∉ rawDins page1 := by
  unfold probeAccepts newVsP1
  constructor
  · intro h
    simp only [Bool.and_eq_true, decide_eq_true_eq] at h
    rcases h with ⟨_, hpos⟩
    rcases List.exists_mem_of_length_pos hpos with ⟨d, hd⟩
    rcases List.mem_filter.mp hd with ⟨hdm, hdc⟩
    have hdm2 : d ∈ rawDins r2 := List.mem_dedup.mp hdm
    rcases List.mem_map.mp hdm2 with ⟨r, hr, he⟩
    refine ⟨r, hr, ?_⟩
    intro hmem
    rw [he] at hmem
    simp only [Bool.not_eq_true'] at hdc
    have hct : (rawDins page1).contains d = true := by
      simpa [List.elem_iff] using hmem
    rw [hct] at hdc
    cases hdc
  · rintro ⟨r, hr, hnot⟩
    have hne : r2.isEmpty = false := by
      cases r2 with
      | nil => cases hr
      | cons a t => rfl
    simp only [Bool.and_eq_true, decide_eq_true_eq]
    constructor
    · rw [hne]; rfl
    · apply List.length_pos.mpr
      intro hnil
      have hmem : r.din ∈ ((rawDins r2).dedup).filter
          (fun d => !((rawDins page1).contains d)) := by
        apply List.mem_filter.mpr
        constructor
        · exact List.mem_dedup.mpr (List.mem_map_of_mem (fun q => q.din) hr)
        · simp only [Bool.not_eq_true']
          rw [← Bool.not_eq_true]
          intro hc
          exact hnot (List.elem_iff.mp hc)
      rw [hnil] at hmem
      cases hmem

/-- When every candidate is rejected (or its fetch raised), the probe
loop fixes no strategy and leaves the accumulator untouched. -/
theorem probeLoop_none {m : Nat} {page1 : List LRow} :
    ∀ {resps : List (Option (List LRow))} {i : Nat} {rows : List LRow},
      (∀ o ∈ resps, ∀ r2, o = some r2 → probeAccepts page1 r2 = false) →
      probeLoop m page1 resps i rows = .ok (none, rows) := by
  intro resps
  induction resps with
  | nil => intro i rows _; rfl
  | cons o rest ih =>
    intro i rows h
    cases o with
    | none =>
      rw [probeLoop]
      exact ih (fun o' ho' => h o' (List.mem_cons_of_mem _ ho'))
    | some r2 =>
      rw [probeLoop,
        if_neg (by rw [h (some r2) (List.mem_cons_self _ _) r2 rfl]; exact Bool.false_ne_true)]
      exact ih (fun o' ho' => h o' (List.mem_cons_of_mem _ ho'))

/-- The probe adopts the first accepted candidate: if candidate `j` is
the first whose page-2 response passes the acceptance test, the loop
inserts that candidate's rows, checks the cap, and fixes index `i + j`
as the strategy for the rest of the run. -/
theorem probeLoop_first {m : Nat} {page1 : List LRow} :
    ∀ {resps : List (Option (List LRow))} {j i : Nat} {rows : List LRow} {r2 : List LRow},
      resps[j]? = some (some r2) → probeAccepts page1 r2 = true →
      (∀ j' < j, ∀ r2', resps[j']? = some (some r2') → probeAccepts page1 r2' = false) →
      probeLoop m page1 resps i rows =
        (if hitCap m (insertChunk rows r2).1 then .error ((insertChunk rows r2).1.take m)
         else .ok (some (i + j), (insertChunk rows r2).1)) := by
  intro resps
  induction resps with
  | nil => intro j i rows r2 hj; simp at hj
  | cons o rest ih =>
    intro j i rows r2 hj hacc hbefore
    cases j with
    | zero =>
      simp only [List.getElem?_cons_zero, Option.some.injEq] at hj
      subst hj
      rw [probeLoop, if_pos hacc, Nat.add_zero]
    | succ j' =>
      simp only [List.getElem?_cons_succ] at hj
      cases o with
      | none =>
        rw [probeLoop]
        rw [ih hj hacc (fun j'' hj'' r2' hr2' =>
          hbefore (j'' + 1) (by omega) r2' (by simpa using hr2'))]
        rw [show i + 1 + j' = i + (j' + 1) by omega]
      | some r2' =>
        have hrej := hbefore 0 (Nat.succ_pos _) r2' (by simp)
        rw [probeLoop, if_neg (by rw [hrej]; exact Bool.false_ne_true)]
        rw [ih hj hacc (fun j'' hj'' r2'' hr2'' =>
          hbefore (j'' + 1) (by omega) r2'' (by simpa using hr2''))]
        rw [show i + 1 + j' = i + (j' + 1) by omega]

/-! ### Claim theorems -/

/-- Claim C3: for every input string, the identity canonicalizer
`_canon_din` returns exactly the digit characters of the input, in
order; it returns the empty string when the input has no digits; and it
is idempotent. -/
theorem C3_canon_din_digits_idempotent :
    (∀ s : String, (canon_din s).data = s.data.filter Char.isDigit) ∧
    (∀ s : String, (∀ c ∈ s.data, ¬ c.isDigit) → canon_din s = "") ∧
    (∀ s : String, canon_din (canon_din s) = canon_din s) := by
  refine ⟨fun s => rfl, ?_, ?_⟩
  · intro s h
    apply String.ext
    show s.data.filter Char.isDigit = ("" : String).data
    rw [List.filter_eq_nil_iff.mpr (by simpa using h)]
  · intro s
    apply String.ext
    show (s.data.filter Char.isDigit).filter Char.isDigit = s.data.filter Char.isDigit
    rw [List.filter_filter]
    simp

/-- Witness for C3 at concrete inputs. -/
theorem C3_canon_din_digits_idempotent_witness :
    (canon_din "0a1-2 b3").data = "0a1-2 b3".data.filter Char.isDigit ∧
    canon_din "xyz-" = "" ∧
    canon_din (canon_din "0a1-2 b3") = canon_din "0a1-2 b3" :=
  ⟨C3_canon_din_digits_idempotent.1 "0a1-2 b3",
   C3_canon_din_digits_idempotent.2.1 "xyz-" (by decide),
   C3_canon_din_digits_idempotent.2.2 "0a1-2 b3"⟩

/-- Claim C10: for every input dict, `canon_row` returns a dict whose
key set is exactly `CANON_KEYS`; every value is carriage-return free and
stripped of leading/trailing whitespace; the biosimilar field is never
empty; `canon_row` is idempotent; and therefore
`row_hash (canon_row r) = row_hash r`. -/
theorem C10_canon_row_normal_form (row : PRow) :
    (canon_row row).map Prod.fst = CANON_KEYS ∧
    (∀ p ∈ canon_row row, '\r' ∉ p.2.data ∧ stripChars p.2.data = p.2.data) ∧
    getOr (canon_row row) "Biosimilar Biologic Drug" ≠ "" ∧
    canon_row (canon_row row) = canon_row row ∧
    row_hash (canon_row row) = row_hash row := by
  refine ⟨canon_row_keys row, ?_, ?_, canon_row_idem row, row_hash_canon_row row⟩
  · intro p hp
    rw [canon_row_eq] at hp
    rcases List.mem_map.mp hp with ⟨k, _, he⟩
    rw [← he]
    exact ⟨canonVal_no_cr row k, canonVal_stripped row k⟩
  · rw [getOr_canon_row row _ (by decide)]
    exact canonVal_biosim_ne row

/-- Witness for C10 at a concrete row. -/
theorem C10_canon_row_normal_form_witness :
    (canon_row [("DIN", " 1\r\n2 ")]).map Prod.fst = CANON_KEYS ∧
    getOr (canon_row [("DIN", " 1\r\n2 ")]) "Biosimilar Biologic Drug" ≠ "" ∧
    canon_row (canon_row [("DIN", " 1\r\n2 ")]) = canon_row [("DIN", " 1\r\n2 ")] ∧
    row_hash (canon_row [("DIN", " 1\r\n2 ")]) = row_hash [("DIN", " 1\r\n2 ")] :=
  ⟨(C10_canon_row_normal_form [("DIN", " 1\r\n2 ")]).1,
   (C10_canon_row_normal_form [("DIN", " 1\r\n2 ")]).2.2.1,
   (C10_canon_row_normal_form [("DIN", " 1\r\n2 ")]).2.2.2.1,
   (C10_canon_row_normal_form [("DIN", " 1\r\n2 ")]).2.2.2.2⟩

/-- Claim C2: `compute_diff` partitions identities completely — every
identity of the new set or the baseline lands in exactly one of
added/removed/modified, or in none exactly when it is present on both
sides with equal fingerprints; and the three partition sizes sum to at
most the size of the union of identities. -/
theorem C2_diff_partition (new_rows : List PRow) (baseline : List (String × PRow))
    (hb : (baseline.map Prod.fst).Nodup) :
    (∀ d, d ∈ (newByDin new_rows).map Prod.fst ∨ d ∈ baseline.map Prod.fst →
      ((d ∈ (compute_diff new_rows baseline).added.map Prod.fst ∧
        d ∉ (compute_diff new_rows baseline).removed.map Prod.fst ∧
        d ∉ (compute_diff new_rows baseline).modified.map Prod.fst) ∨
       (d ∉ (compute_diff new_rows baseline).added.map Prod.fst ∧
        d ∈ (compute_diff new_rows baseline).removed.map Prod.fst ∧
        d ∉ (compute_diff new_rows baseline).modified.map Prod.fst) ∨
       (d ∉ (compute_diff new_rows baseline).added.map Prod.fst ∧
        d ∉ (compute_diff new_rows baseline).removed.map Prod.fst ∧
        d ∈ (compute_diff new_rows baseline).modified.map Prod.fst) ∨
       (d ∉ (compute_diff new_rows baseline).added.map Prod.fst ∧
        d ∉ (compute_diff new_rows baseline).removed.map Prod.fst ∧
        d ∉ (compute_diff new_rows baseline).modified.map Prod.fst ∧
        ∃ v w, (newByDin new_rows).lookup d = some v ∧ baseline.lookup d = some w ∧
          row_hash v = row_hash w))) ∧
    (compute_diff new_rows baseline).added.length +
        (compute_diff new_rows baseline).removed.length +
        (compute_diff new_rows baseline).modified.length ≤
      (((newByDin new_rows).map Prod.fst).toFinset ∪
        (baseline.map Prod.fst).toFinset).card := by
  refine ⟨?_, diff_length_bound new_rows baseline hb⟩
  intro d hd
  cases hnl : (newByDin new_rows).lookup d with
  | some v =>
    have hdn : d ∈ (newByDin new_rows).map Prod.fst :=
      lookup_isSome_iff.mp (by rw [hnl]; rfl)
    cases hbl : baseline.lookup d with
    | none =>
      left
      refine ⟨mem_added_keys_iff.mpr ⟨hdn, hbl⟩, ?_, ?_⟩
      · intro hr
        rcases mem_removed_keys_iff.mp hr with ⟨_, h0⟩
        rw [hnl] at h0; cases h0
      · intro hm
        rcases mem_modified_keys_iff.mp hm with ⟨v', w, _, hw, _⟩
        rw [hbl] at hw; cases hw
    | some w =>
      by_cases hh : row_hash v = row_hash w
      · right; right; right
        refine ⟨?_, ?_, ?_, v, w, rfl, rfl, hh⟩
        · intro ha
          rcases mem_added_keys_iff.mp ha with ⟨_, h0⟩
          rw [hbl] at h0; cases h0
        · intro hr
          rcases mem_removed_keys_iff.mp hr with ⟨_, h0⟩
          rw [hnl] at h0; cases h0
        · intro hm
          rcases mem_modified_keys_iff.mp hm with ⟨v', w', hv', hw', hne⟩
          rw [hnl] at hv'; rw [hbl] at hw'
          cases hv'; cases hw'
          exact hne hh
      · right; right; left
        refine ⟨?_, ?_, mem_modified_keys_iff.mpr ⟨v, w, hnl, hbl, hh⟩⟩
        · intro ha
          rcases mem_added_keys_iff.mp ha with ⟨_, h0⟩
          rw [hbl] at h0; cases h0
        · intro hr
          rcases mem_removed_keys_iff.mp hr with ⟨_, h0⟩
          rw [hnl] at h0; cases h0
  | none =>
    have hdn : d ∉ (newByDin new_rows).map Prod.fst := lookup_eq_none_iff.mp hnl
    have hdb : d ∈ baseline.map Prod.fst := by
      rcases hd with h | h
      · exact absurd h hdn
      · exact h
    right; left
    refine ⟨?_, mem_removed_keys_iff.mpr ⟨hdb, hnl⟩, ?_⟩
    · intro ha
      exact hdn (mem_added_keys_iff.mp ha).1
    · intro hm
      rcases mem_modified_keys_iff.mp hm with ⟨v, _, hv, _, _⟩
      rw [hnl] at hv; cases hv

/-- Witness for C2 at a concrete new set and baseline. -/
theorem C2_diff_partition_witness :
    (compute_diff [[("DIN", "1")]] [("2", [("DIN", "2")])]).added.length +
        (compute_diff [[("DIN", "1")]] [("2", [("DIN", "2")])]).removed.length +
        (compute_diff [[("DIN", "1")]] [("2", [("DIN", "2")])]).modified.length ≤
      (((newByDin [[("DIN", "1")]]).map Prod.fst).toFinset ∪
        (([("2", [("DIN", "2")])].map Prod.fst : List String)).toFinset).card :=
  (C2_diff_partition [[("DIN", "1")]] [("2", [("DIN", "2")])] (by decide)).2

/-- Claim C4 counterexample: `compute_diff` keys records by the RAW
`"DIN"` string, not by the canonical digits-only form.  Two rows whose
raw identities differ only in a non-digit character (`"12-3"` versus
`"123"`, identical canonical form) are classified as one `added` and one
`removed` record instead of the same record. -/
theorem C4_counterexample :
    canon_din "12-3" = canon_din "123" ∧ canon_din "123" ≠ "" ∧
    (compute_diff [[("DIN", "12-3")]] [("123", [("DIN", "123")])]).added.map Prod.fst
      = ["12-3"] ∧
    (compute_diff [[("DIN", "12-3")]] [("123", [("DIN", "123")])]).removed.map Prod.fst
      = ["123"] := by
  refine ⟨by decide, by decide, ?_, ?_⟩
  · rw [added_keys, newByDin_singleton _ (by decide)]
    decide
  · rw [removed_eq, newByDin_singleton _ (by decide)]
    decide

/-- Claim C4 (amended): `compute_diff` compares identities by raw
string equality of the `"DIN"` field, applying no canonicalization:
a single-row new set and a singleton baseline are treated as the same
record exactly when the raw strings coincide; otherwise the pair is
reported as one `added` and one `removed` record. -/
theorem C4_raw_din_keys (r1 : PRow) (d2 : String) (r2 : PRow) (hd : getOr r1 "DIN" ≠ "") :
    (getOr r1 "DIN" = d2 →
      (compute_diff [r1] [(d2, r2)]).added = [] ∧
      (compute_diff [r1] [(d2, r2)]).removed = []) ∧
    (getOr r1 "DIN" ≠ d2 →
      (compute_diff [r1] [(d2, r2)]).added.map Prod.fst = [getOr r1 "DIN"] ∧
      (compute_diff [r1] [(d2, r2)]).removed.map Prod.fst = [d2]) := by
  constructor
  · intro he
    constructor
    · rw [compute_diff_added, newByDin_singleton _ hd]
      rw [List.filterMap_cons]
      rw [show List.lookup (getOr r1 "DIN", canon_row r1).1 [(d2, r2)]
        = some r2 by rw [lookup_pair_cons, if_pos he]]
      rfl
    · rw [compute_diff_removed, newByDin_singleton _ hd]
      rw [List.filterMap_cons]
      rw [show (List.lookup (d2, r2).1 [(getOr r1 "DIN", canon_row r1)]).isSome = true by
        rw [lookup_pair_cons, if_pos he.symm]; rfl]
      rfl
  · intro hne
    constructor
    · rw [compute_diff_added, newByDin_singleton _ hd]
      rw [List.filterMap_cons]
      rw [show List.lookup (getOr r1 "DIN", canon_row r1).1 [(d2, r2)]
        = none by rw [lookup_pair_cons, if_neg hne]; rfl]
      rfl
    · rw [compute_diff_removed, newByDin_singleton _ hd]
      rw [List.filterMap_cons]
      rw [show (List.lookup (d2, r2).1 [(getOr r1 "DIN", canon_row r1)]).isSome = false by
        rw [lookup_pair_cons, if_neg (fun h => hne h.symm)]; rfl]
      rfl

/-- Witness for the amended C4 at concrete rows. -/
theorem C4_raw_din_keys_witness :
    (compute_diff [[("DIN", "123")]] [("123", [])]).added = [] ∧
    (compute_diff [[("DIN", "123")]] [("123", [])]).removed = [] :=
  (C4_raw_din_keys [("DIN", "123")] "123" [] (by decide)).1 (by decide)

/-- Claim C8: the fingerprint is invariant under field reordering, under
line-ending normalization of the values, and under space/tab padding of
the values; and two rows with equal fingerprints are never classified as
`modified`. -/
theorem C8_fingerprint_invariance :
    (∀ r1 r2 : PRow, (r1.map Prod.fst).Nodup → r1.Perm r2 → row_hash r1 = row_hash r2) ∧
    (∀ r : PRow, row_hash (mapVals normNL r) = row_hash r) ∧
    (∀ a b : String, (∀ c ∈ a.data, c = ' ' ∨ c = '\t') →
      (∀ c ∈ b.data, c = ' ' ∨ c = '\t') →
      ∀ r : PRow, row_hash (mapVals (fun v => a ++ v ++ b) r) = row_hash r) ∧
    (∀ (d : String) (r1 r2 : PRow), row_hash r1 = row_hash r2 →
      (compute_diff [r2] [(d, r1)]).modified = []) := by
  refine ⟨?_, ?_, ?_, ?_⟩
  · intro r1 r2 hn hp
    unfold row_hash
    rw [canon_row_perm hp hn]
  · intro r
    unfold row_hash
    rw [canon_row_mapVals normVal_normNL r]
  · intro a b ha hb r
    unfold row_hash
    rw [canon_row_mapVals (fun v => normVal_pad ha hb v) r]
  · intro d r1 r2 hh
    rw [compute_diff_modified]
    by_cases hd2 : getOr r2 "DIN" = ""
    · rw [newByDin_singleton_empty _ hd2]
      rfl
    · rw [newByDin_singleton _ hd2, List.filterMap_cons]
      by_cases he : getOr r2 "DIN" = d
      · rw [show List.lookup (getOr r2 "DIN", canon_row r2).1 [(d, r1)] = some r1 by
          rw [lookup_pair_cons, if_pos he]]
        have hhc : row_hash (canon_row r2) = row_hash r1 := by
          rw [row_hash_canon_row, hh]
        rw [show (match some r1 with
          | none => none
          | some br =>
            if row_hash (getOr r2 "DIN", canon_row r2).2 = row_hash br then none
            else some ((getOr r2 "DIN", canon_row r2).1, br, (getOr r2 "DIN", canon_row r2).2))
          = (none : Option (String × PRow × PRow)) by
            show (if row_hash (canon_row r2) = row_hash r1 then none else _) = none
            rw [if_pos hhc]]
        rfl
      · rw [show List.lookup (getOr r2 "DIN", canon_row r2).1 [(d, r1)] = none by
          rw [lookup_pair_cons, if_neg he]; rfl]
        rfl

/-- Witness for C8 at concrete rows and paddings. -/
theorem C8_fingerprint_invariance_witness :
    row_hash [("Status", "A"), ("DIN", "1")] = row_hash [("DIN", "1"), ("Status", "A")] ∧
    row_hash (mapVals normNL [("Status", "A\r\nB")]) = row_hash [("Status", "A\r\nB")] ∧
    row_hash (mapVals (fun v => " " ++ v ++ "\t") [("Status", "A")])
      = row_hash [("Status", "A")] ∧
    (compute_diff [[("DIN", "1")]] [("1", [("DIN", "1")])]).modified = [] :=
  ⟨C8_fingerprint_invariance.1 _ _ (by decide)
      (List.Perm.swap ("DIN", "1") ("Status", "A") []),
   C8_fingerprint_invariance.2.1 _,
   C8_fingerprint_invariance.2.2.1 " " "\t" (by decide) (by decide) _,
   C8_fingerprint_invariance.2.2.2 "1" [("DIN", "1")] [("DIN", "1")] rfl⟩

/-- Claim C1 counterexample: the claim fails as stated.  When the
`sample_n` shortcut is taken (`if sample_n: return rows_all[:sample_n]`,
which runs before any cap check), the returned list can exceed a
positive `max_rows`: with `max_rows = 1`, `sample_n = 2` and two page-1
rows, `collect_all_list_rows` returns 2 rows. -/
theorem C1_counterexample :
    (0 : Nat) < 1 ∧
    (collect_all_list_rows
      { page1 := [⟨"1", "a"⟩, ⟨"2", "b"⟩], perPageDt := 0, total := none,
        probeResps := [], drainFetch := fun _ _ => none, sweepFetch := fun _ _ _ => [] }
      { maxRows := 1, minRows := 0, sampleN := some 2, stallLimit := 2,
        sweepPageLimit := 8, sweepMaxEmpty := 0, brandFirst := false }).length = 2 :=
  ⟨Nat.zero_lt_one, rfl⟩

/-- Claim C1 (amended): with `sample_n` unset, for every cap `N > 0`
passed as `max_rows` the list returned by `collect_all_list_rows` never
exceeds `N` rows: the shard sweep checks the cap after every insertion,
the pagination probe and drain check it after every page, and every
return site truncates to `max_rows` when the cap was reached. -/
theorem C1_cap_enforced (inp : NetInput) (cfg : Cfg) (hm : 0 < cfg.maxRows)
    (hs : cfg.sampleN = none) :
    (collect_all_list_rows inp cfg).length ≤ cfg.maxRows := by
  unfold collect_all_list_rows
  rw [hs]
  rw [if_neg (by simp [optTruthy])]
  exact collectBody_length hm

/-- Witness for the amended C1 at a concrete input (cap 1, two distinct
page-1 rows…; the page-1 cap check truncates). -/
theorem C1_cap_enforced_witness :
    (0 : Nat) <
      ({ maxRows := 1, minRows := 0, sampleN := none, stallLimit := 2,
         sweepPageLimit := 8, sweepMaxEmpty := 0, brandFirst := false } : Cfg).maxRows ∧
    (collect_all_list_rows
      { page1 := [⟨"1", "a"⟩, ⟨"2", "b"⟩], perPageDt := 0, total := none,
        probeResps := [], drainFetch := fun _ _ => none, sweepFetch := fun _ _ _ => [] }
      { maxRows := 1, minRows := 0, sampleN := none, stallLimit := 2,
        sweepPageLimit := 8, sweepMaxEmpty := 0, brandFirst := false }).length ≤ 1 :=
  ⟨Nat.zero_lt_one,
   C1_cap_enforced
     { page1 := [⟨"1", "a"⟩, ⟨"2", "b"⟩], perPageDt := 0, total := none,
       probeResps := [], drainFetch := fun _ _ => none, sweepFetch := fun _ _ _ => [] }
     { maxRows := 1, minRows := 0, sampleN := none, stallLimit := 2,
       sweepPageLimit := 8, sweepMaxEmpty := 0, brandFirst := false }
     Nat.zero_lt_one rfl⟩

/-- Claim C5 counterexample: the claim fails on the first-page path.
`rows_all.extend(page1_rows)` inserts the page-1 rows with no identity
filter, so a page-1 row whose DIN has no digits (canonical identity
`""`) survives into the final result. -/
theorem C5_counterexample :
    (⟨"X", "a"⟩ : LRow) ∈ collect_all_list_rows
      { page1 := [⟨"X", "a"⟩], perPageDt := 0, total := none,
        probeResps := [none, none, none, none], drainFetch := fun _ _ => none,
        sweepFetch := fun _ _ _ => [] }
      { maxRows := 0, minRows := 5, sampleN := none, stallLimit := 2,
        sweepPageLimit := 8, sweepMaxEmpty := 1, brandFirst := false } ∧
    canon_din "X" = "" := by
  constructor
  · decide
  · decide

/-- Claim C5 (amended): every insertion path other than the initial
page-1 bulk insert (pagination probe, pagination drain, shard sweep)
discards rows whose identity canonicalizes to the empty string; hence
whenever all page-1 rows have a nonempty canonical identity, so does
every row of the final result of `collect_all_list_rows`. -/
theorem C5_nonempty_identity (inp : NetInput) (cfg : Cfg)
    (h : ∀ r ∈ inp.page1, canon_din r.din ≠ "") :
    ∀ r ∈ collect_all_list_rows inp cfg, canon_din r.din ≠ "" := by
  unfold collect_all_list_rows
  split
  · exact fun r hr => h r ((List.take_sublist _ _).subset hr)
  · simp only [collectBody]
    split
    · exact fun r hr => h r ((List.take_sublist _ _).subset hr)
    · split
      · exact sweepPhase_good h
      · split
        · rename_i res heq
          exact (probeLoop_good h).1 res heq
        · rename_i rows1 heq
          exact sweepPhase_good ((probeLoop_good h).2 none rows1 heq)
        · rename_i i rows1 heq
          have h1 := (probeLoop_good h).2 (some i) rows1 heq
          split
          · rename_i res heq2
            exact (drainLoop_good h1).1 res heq2
          · rename_i rows2 heq2
            have h2 := (drainLoop_good h1).2 rows2 heq2
            split
            · exact capReturn_good h2
            · exact sweepPhase_good h2

/-- Witness for the amended C5: at a concrete input whose page-1 row
carries a digit identity, the theorem applies to the row found in the
result. -/
theorem C5_nonempty_identity_witness :
    canon_din (⟨"00000001", "a"⟩ : LRow).din ≠ "" :=
  C5_nonempty_identity
    { page1 := [⟨"00000001", "a"⟩], perPageDt := 0, total := none,
      probeResps := [], drainFetch := fun _ _ => none, sweepFetch := fun _ _ _ => [] }
    { maxRows := 0, minRows := 5, sampleN := none, stallLimit := 2,
      sweepPageLimit := 8, sweepMaxEmpty := 1, brandFirst := false }
    (by decide) ⟨"00000001", "a"⟩ (by decide)

/-- Claim C7: with the configured stall policy of 2, the pagination
drain (i) stops the instant a fetched page parses to zero rows, leaving
the accumulator untouched and consulting no further pages; (ii) stops as
a stall on the second consecutive page contributing zero new
identities; (iii) continues (with the stall counter at 1) after a first
zero-new page; and (iv) resets the stall counter to zero after any page
contributing at least one new identity. -/
theorem C7_drain_empty_page_and_stall (m : Nat) (fetch : Nat → Option (List LRow))
    (p : Nat) (rest : List Nat) (stall : Nat) (rows : List LRow) :
    (fetch p = some [] → drainLoop m 2 fetch (p :: rest) stall rows = .ok rows) ∧
    (∀ chunk, fetch p = some chunk → chunk ≠ [] → (insertChunk rows chunk).2 = 0 →
      stall = 1 → drainLoop m 2 fetch (p :: rest) stall rows = .ok rows) ∧
    (∀ chunk, fetch p = some chunk → chunk ≠ [] → (insertChunk rows chunk).2 = 0 →
      stall = 0 → hitCap m rows = false →
      drainLoop m 2 fetch (p :: rest) stall rows = drainLoop m 2 fetch rest 1 rows) ∧
    (∀ chunk, fetch p = some chunk → chunk ≠ [] → 0 < (insertChunk rows chunk).2 →
      hitCap m (insertChunk rows chunk).1 = false →
      drainLoop m 2 fetch (p :: rest) stall rows
        = drainLoop m 2 fetch rest 0 (insertChunk rows chunk).1) := by
  refine ⟨?_, ?_, ?_, ?_⟩
  · intro h
    simp only [drainLoop, h]
    rfl
  · intro chunk h hne hz hstall
    subst hstall
    have hemp : chunk.isEmpty = false := by
      cases chunk with
      | nil => exact absurd rfl hne
      | cons a t => rfl
    simp only [drainLoop, h]
    rw [if_neg (by rw [hemp]; exact Bool.false_ne_true), if_pos hz,
      if_pos (by omega), insertChunk_zero hz]
  · intro chunk h hne hz hstall hcap
    subst hstall
    have hemp : chunk.isEmpty = false := by
      cases chunk with
      | nil => exact absurd rfl hne
      | cons a t => rfl
    simp only [drainLoop, h]
    rw [if_neg (by rw [hemp]; exact Bool.false_ne_true), if_pos hz,
      if_neg (by omega), insertChunk_zero hz,
      if_neg (by rw [hcap]; exact Bool.false_ne_true)]
  · intro chunk h hne hpos hcap
    have hemp : chunk.isEmpty = false := by
      cases chunk with
      | nil => exact absurd rfl hne
      | cons a t => rfl
    simp only [drainLoop, h]
    rw [if_neg (by rw [hemp]; exact Bool.false_ne_true),
      if_neg (by omega), if_neg (by rw [hcap]; exact Bool.false_ne_true)]

/-- Witness for C7 at concrete fetches: an empty page 3 stops
immediately; a second consecutive zero-new page stops; a productive
page resets the counter. -/
theorem C7_drain_empty_page_and_stall_witness :
    drainLoop 0 2 (fun _ => some []) [3, 4] 0 [] = .ok [] ∧
    drainLoop 0 2 (fun _ => some [⟨"X", "x"⟩]) [3] 1 [] = .ok [] ∧
    drainLoop 0 2 (fun _ => some [⟨"1", "a"⟩]) [3] 5 []
      = drainLoop 0 2 (fun _ => some [⟨"1", "a"⟩]) [] 0
          (insertChunk [] [⟨"1", "a"⟩]).1 :=
  ⟨(C7_drain_empty_page_and_stall 0 (fun _ => some []) 3 [4] 0 []).1 rfl,
   (C7_drain_empty_page_and_stall 0 (fun _ => some [⟨"X", "x"⟩]) 3 [] 1 []).2.1
     [⟨"X", "x"⟩] rfl (by decide) (by decide) rfl,
   (C7_drain_empty_page_and_stall 0 (fun _ => some [⟨"1", "a"⟩]) 3 [] 5 []).2.2.2
     [⟨"1", "a"⟩] rfl (by decide) (by decide) (by decide)⟩

/-- Claim C9: the shard-group loop counts consecutive fully-empty
shards: (i) a shard with zero rows at every page is reported
`saw_any = False` and a shard whose first page has rows is reported
`saw_any = True`; (ii) with the threshold configured 0 and no row cap,
the group is never abandoned; (iii) an empty shard pushing the streak to
a nonzero threshold abandons the group immediately; (iv) an empty shard
below the threshold continues with the streak incremented; (v) any
shard that saw rows resets the streak to zero. -/
theorem C9_group_empty_streak (m sl spl me : Nat) (fetch : String → Nat → List LRow)
    (v : String) (rest : List String) (streak : Nat) (rows : List LRow) :
    ((∀ p, fetch v p = []) → sweep_one m sl spl (fetch v) rows = (rows, 0, false)) ∧
    (fetch v 1 ≠ [] → (sweep_one m sl spl (fetch v) rows).2.2 = true) ∧
    (m = 0 → me = 0 → ∀ (vals : List String) (streak' : Nat) (rows' : List LRow),
      (runPrefixGroup m sl spl me fetch vals streak' rows').1 = false) ∧
    ((sweep_one m sl spl (fetch v) rows).2.2 = false → me ≠ 0 → me ≤ streak + 1 →
      runPrefixGroup m sl spl me fetch (v :: rest) streak rows
        = (true, (sweep_one m sl spl (fetch v) rows).1)) ∧
    ((sweep_one m sl spl (fetch v) rows).2.2 = false → (me = 0 ∨ streak + 1 < me) →
      hitCap m (sweep_one m sl spl (fetch v) rows).1 = false →
      runPrefixGroup m sl spl me fetch (v :: rest) streak rows
        = runPrefixGroup m sl spl me fetch rest (streak + 1)
            (sweep_one m sl spl (fetch v) rows).1) ∧
    ((sweep_one m sl spl (fetch v) rows).2.2 = true →
      hitCap m (sweep_one m sl spl (fetch v) rows).1 = false →
      runPrefixGroup m sl spl me fetch (v :: rest) streak rows
        = runPrefixGroup m sl spl me fetch rest 0
            (sweep_one m sl spl (fetch v) rows).1) := by
  refine ⟨fun hf => sweep_one_all_empty hf rows, fun h => sweep_one_sawAny h, ?_, ?_, ?_, ?_⟩
  · intro hm hme vals
    subst hm hme
    induction vals with
    | nil => intro streak' rows'; rfl
    | cons v' rest' ih =>
      intro streak' rows'
      simp only [runPrefixGroup]
      split
      · rw [if_neg (by simp), if_neg (by rw [hitCap_zero]; exact Bool.false_ne_true)]
        exact ih _ _
      · rw [if_neg (by rw [hitCap_zero]; exact Bool.false_ne_true)]
        exact ih _ _
  · intro hsaw hme hle
    simp only [runPrefixGroup]
    rw [if_pos (by rw [hsaw]; rfl), if_pos (by simp [hme, hle])]
  · intro hsaw hlt hcap
    simp only [runPrefixGroup]
    rw [if_pos (by rw [hsaw]; rfl),
      if_neg (by rcases hlt with h0 | h0 <;> simp [h0]),
      if_neg (by rw [hcap]; exact Bool.false_ne_true)]
  · intro hsaw hcap
    simp only [runPrefixGroup]
    rw [if_neg (by rw [hsaw]; simp),
      if_neg (by rw [hcap]; exact Bool.false_ne_true)]

/-- Witness for C9 at concrete shard fetches. -/
theorem C9_group_empty_streak_witness :
    sweep_one 0 2 8 ((fun _ _ => ([] : List LRow)) "A") [] = ([], 0, false) ∧
    (runPrefixGroup 0 2 8 0 (fun _ _ => ([] : List LRow)) ["A", "B"] 0 []).1 = false ∧
    runPrefixGroup 0 2 8 1 (fun _ _ => ([] : List LRow)) ["A", "B"] 0 []
      = (true, (sweep_one 0 2 8 ((fun _ _ => ([] : List LRow)) "A") []).1) :=
  ⟨(C9_group_empty_streak 0 2 8 1 (fun _ _ => []) "A" [] 0 []).1 (fun _ => rfl),
   (C9_group_empty_streak 0 2 8 0 (fun _ _ => []) "A" [] 0 []).2.2.1 rfl rfl ["A", "B"] 0 [],
   (C9_group_empty_streak 0 2 8 1 (fun _ _ => []) "A" ["B"] 0 []).2.2.2.1
     (by decide) (by decide) (by decide)⟩

/-- Claim C6 counterexample: the acceptance test compares RAW DIN
strings, not canonical identities.  Page 2 = `[din "1-"]` carries
exactly the canonical identities of page 1 = `[din "1"]` (zero new), so
per the claim the candidate must be rejected; the engine accepts it
(raw `"1-"` is unseen) and goes on to drain page 3 with it, as the
drained row `din "2"` in the result shows. -/
theorem C6_counterexample :
    canon_din "1-" = canon_din "1" ∧
    probeAccepts [⟨"1", "a"⟩] [⟨"1-", "b"⟩] = true ∧
    (⟨"2", "c"⟩ : LRow) ∈ collect_all_list_rows
      { page1 := [⟨"1", "a"⟩], perPageDt := 0, total := none,
        probeResps := [some [⟨"1-", "b"⟩]],
        drainFetch := fun i p => if i = 0 && p = 3 then some [⟨"2", "c"⟩] else none,
        sweepFetch := fun _ _ _ => [] }
      { maxRows := 0, minRows := 0, sampleN := none, stallLimit := 2,
        sweepPageLimit := 8, sweepMaxEmpty := 1, brandFirst := false } :=
  ⟨by decide, by decide, by decide⟩

/-- Claim C6 (amended): a candidate paging strategy is accepted iff its
page-2 response contains at least one row whose RAW DIN string is
absent from the page-1 raw DINs (so rows differing only in non-digit
characters, or rows with no DIN at all, count as "new"); a raising
fetch is skipped; when no candidate is accepted the engine leaves the
accumulator untouched and falls through to the shard sweep; and the
first accepted candidate (its rows inserted and the cap checked) is the
one the drain uses for all subsequent pages. -/
theorem C6_probe_first_accept (cfg : Cfg) :
    (∀ page1 r2 : List LRow,
      probeAccepts page1 r2 = true ↔ ∃ r ∈ r2, r.din ∉ rawDins page1) ∧
    (∀ (m : Nat) (page1 : List LRow) (resps : List (Option (List LRow))) (i : Nat)
        (rows : List LRow),
      (∀ o ∈ resps, ∀ r2, o = some r2 → probeAccepts page1 r2 = false) →
      probeLoop m page1 resps i rows = .ok (none, rows)) ∧
    (∀ (m : Nat) (page1 : List LRow) (resps : List (Option (List LRow))) (j : Nat)
        (rows r2 : List LRow),
      resps[j]? = some (some r2) → probeAccepts page1 r2 = true →
      (∀ j' < j, ∀ r2', resps[j']? = some (some r2') → probeAccepts page1 r2' = false) →
      probeLoop m page1 resps 0 rows =
        (if hitCap m (insertChunk rows r2).1 then .error ((insertChunk rows r2).1.take m)
         else .ok (some j, (insertChunk rows r2).1))) ∧
    (∀ inp : NetInput, cfg.sampleN = none → hitCap cfg.maxRows inp.page1 = false →
      (∀ o ∈ inp.probeResps, ∀ r2, o = some r2 → probeAccepts inp.page1 r2 = false) →
      collect_all_list_rows inp cfg = sweepPhase inp cfg inp.page1) ∧
    (∀ (p1 : List LRow) (ppd : Nat) (tot : Option Nat)
        (resps : List (Option (List LRow))) (df g : Nat → Nat → Option (List LRow))
        (sf : String → String → Nat → List LRow) (i0 : Nat) (rows1 : List LRow),
      probeLoop cfg.maxRows p1 resps 0 p1 = .ok (some i0, rows1) →
      g i0 = df i0 →
      collect_all_list_rows ⟨p1, ppd, tot, resps, g, sf⟩ cfg
        = collect_all_list_rows ⟨p1, ppd, tot, resps, df, sf⟩ cfg) := by
  refine ⟨probeAccepts_iff, ?_, ?_, ?_, ?_⟩
  · intro m page1 resps i rows h
    exact probeLoop_none h
  · intro m page1 resps j rows r2 hj hacc hbefore
    have := @probeLoop_first m page1 resps j 0 rows r2 hj hacc hbefore
    rwa [Nat.zero_add] at this
  · intro inp hs hcap hnone
    unfold collect_all_list_rows
    rw [hs, if_neg (by simp [optTruthy])]
    simp only [collectBody]
    rw [if_neg (by rw [hcap]; exact Bool.false_ne_true)]
    by_cases hp : inp.page1.isEmpty = true
    · rw [if_pos hp]
    · rw [if_neg hp, probeLoop_none hnone]
  · intro p1 ppd tot resps df g sf i0 rows1 h hg
    unfold collect_all_list_rows
    by_cases ht : optTruthy cfg.sampleN = true
    · rw [if_pos ht, if_pos ht]
    · rw [if_neg ht, if_neg ht]
      simp only [collectBody, h]
      rw [hg]
      rfl

/-- Witness for the amended C6 at concrete candidates: a candidate with
only already-seen raw DINs is rejected and the engine falls through to
the sweep with the accumulator untouched. -/
theorem C6_probe_first_accept_witness :
    probeLoop 0 [⟨"1", "a"⟩] [some [⟨"1", "b"⟩], none] 0 [⟨"1", "a"⟩]
      = .ok (none, [⟨"1", "a"⟩]) ∧
    collect_all_list_rows
      { page1 := [⟨"1", "a"⟩], perPageDt := 0, total := none,
        probeResps := [some [⟨"1", "b"⟩]], drainFetch := fun _ _ => none,
        sweepFetch := fun _ _ _ => [] }
      { maxRows := 0, minRows := 5, sampleN := none, stallLimit := 2,
        sweepPageLimit := 8, sweepMaxEmpty := 1, brandFirst := false }
      = sweepPhase
        { page1 := [⟨"1", "a"⟩], perPageDt := 0, total := none,
          probeResps := [some [⟨"1", "b"⟩]], drainFetch := fun _ _ => none,
          sweepFetch := fun _ _ _ => [] }
        { maxRows := 0, minRows := 5, sampleN := none, stallLimit := 2,
          sweepPageLimit := 8, sweepMaxEmpty := 1, brandFirst := false }
        [⟨"1", "a"⟩] :=
  ⟨(C6_probe_first_accept
      { maxRows := 0, minRows := 5, sampleN := none, stallLimit := 2,
        sweepPageLimit := 8, sweepMaxEmpty := 1, brandFirst := false }).2.1
      0 [⟨"1", "a"⟩] [some [⟨"1", "b"⟩], none] 0 [⟨"1", "a"⟩]
      (fun o ho r2 he => by
        rcases List.mem_cons.mp ho with h1 | h1
        · rw [h1] at he
          cases he
          decide
        · rw [List.mem_singleton.mp h1] at he
          cases he),
   (C6_probe_first_accept
      { maxRows := 0, minRows := 5, sampleN := none, stallLimit := 2,
        sweepPageLimit := 8, sweepMaxEmpty := 1, brandFirst := false }).2.2.2.1
      { page1 := [⟨"1", "a"⟩], perPageDt := 0, total := none,
        probeResps := [some [⟨"1", "b"⟩]], drainFetch := fun _ _ => none,
        sweepFetch := fun _ _ _ => [] }
      rfl (by decide)
      (fun o ho r2 he => by
        rw [List.mem_singleton.mp ho] at he
        cases he
        decide)⟩

end DpdScraper
